import Mathlib

/-!
# Verification of the Sankey CSV plotter core (`src/app.ts`)

This file shallowly embeds the data model and the core algorithms of the
`CSVPlotter` class — the CSV row parser (`parseCSV`), the aggregator
(`prepareSankeyData`), the layout engine (`calculatePositions`), the
selection model (`handleNodeHover` / `handleNodeUnhover` /
`toggleNodeSelection`) and the filter/highlight engine
(`updateLinkHighlights`) — and proves / refutes the specification claims
about them.

Modelling conventions:
* JavaScript numbers are modelled as `Option ℚ`: `some q` is the exact
  finite value `q` (float rounding is waived, matching the spec's
  "within floating-point tolerance"), `none` stands for a non-finite
  value (`NaN` or `±Infinity`, e.g. from a division by zero) or any value
  poisoned by one.  Sums of record weights never divide, so they stay in
  plain `ℚ`.
* JavaScript strings are Lean `String`s; the string helpers the source
  relies on (`split`, `trim`, `parseFloat`) are re-implemented
  structurally over `String.data` so that they evaluate in the kernel.
  `parseFloat` models the finite-numeral fragment (optional sign, digits,
  fraction, exponent); the `Infinity` literal is not modelled.
* A record's dynamic property read `record[header]` returns
  `Option String` (`none` = JS `undefined`); `===` on such values is
  `Option` equality, exactly as in JS (`undefined === undefined`).
* JS `Map`s are association lists: `set` updates an existing entry in
  place or appends, `get` returns the most recently `set` value;
  iteration follows key-insertion order, as JS specifies.
-/

/-! ## Records (`CSVRecord`) -/

/-- A parsed CSV record: dimension assignments (in assignment order, later
assignments overwrite) plus the numeric `count` (last column). -/
structure CSVRecord where
  attrs : List (String × String)
  count : ℚ
  deriving DecidableEq, Repr

instance : Inhabited CSVRecord := ⟨⟨[], 0⟩⟩

/-- `record[header]` — JS property read; `none` models `undefined`. -/
def CSVRecord.get? (r : CSVRecord) (h : String) : Option String :=
  (r.attrs.find? (fun p => p.1 = h)).map Prod.snd

/-- Sum of the `count` fields of a list of records. -/
def sumCounts (l : List CSVRecord) : ℚ :=
  (l.map CSVRecord.count).sum

@[simp] theorem sumCounts_nil : sumCounts [] = 0 := rfl

@[simp] theorem sumCounts_cons (r : CSVRecord) (l : List CSVRecord) :
    sumCounts (r :: l) = r.count + sumCounts l := rfl

@[simp] theorem sumCounts_append (l₁ l₂ : List CSVRecord) :
    sumCounts (l₁ ++ l₂) = sumCounts l₁ + sumCounts l₂ := by
  simp [sumCounts]

/-! ## First-occurrence deduplication (JS `[...new Set(xs)]`) -/

/-- One step of first-occurrence dedup: keep `acc` if `x` already seen,
else append `x`. -/
def insertUnique {α : Type} [DecidableEq α] (acc : List α) (x : α) : List α :=
  if x ∈ acc then acc else acc ++ [x]

/-- `[...new Set(l)]`: distinct elements of `l` in first-occurrence order. -/
def uniqueFirst {α : Type} [DecidableEq α] (l : List α) : List α :=
  l.foldl insertUnique []

theorem mem_insertUnique {α : Type} [DecidableEq α] {acc : List α} {x a : α} :
    a ∈ insertUnique acc x ↔ a ∈ acc ∨ a = x := by
  by_cases h : x ∈ acc <;> simp [insertUnique, h]
  rintro rfl; exact h

theorem nodup_insertUnique {α : Type} [DecidableEq α] {acc : List α} (x : α)
    (h : acc.Nodup) : (insertUnique acc x).Nodup := by
  by_cases hx : x ∈ acc <;> simp [insertUnique, hx, List.nodup_append, h]

theorem foldl_insertUnique_mem {α : Type} [DecidableEq α] (l : List α) :
    ∀ (acc : List α) (a : α), a ∈ l.foldl insertUnique acc ↔ a ∈ acc ∨ a ∈ l := by
  induction l with
  | nil => simp
  | cons x xs ih =>
    intro acc a
    rw [List.foldl_cons, ih, mem_insertUnique]
    constructor
    · rintro ((h | rfl) | h) <;> simp_all
    · rintro (h | h)
      · exact Or.inl (Or.inl h)
      · rcases List.mem_cons.mp h with rfl | h
        · exact Or.inl (Or.inr rfl)
        · exact Or.inr h

theorem mem_uniqueFirst {α : Type} [DecidableEq α] {l : List α} {a : α} :
    a ∈ uniqueFirst l ↔ a ∈ l := by
  rw [uniqueFirst, foldl_insertUnique_mem]; simp

theorem nodup_uniqueFirst {α : Type} [DecidableEq α] (l : List α) :
    (uniqueFirst l).Nodup := by
  have : ∀ acc : List α, acc.Nodup → (l.foldl insertUnique acc).Nodup := by
    induction l with
    | nil => exact fun acc h => h
    | cons x xs ih => exact fun acc h => ih _ (nodup_insertUnique x h)
  exact this [] List.nodup_nil

theorem uniqueFirst_concat {α : Type} [DecidableEq α] (l : List α) (x : α) :
    uniqueFirst (l ++ [x]) = insertUnique (uniqueFirst l) x := by
  simp [uniqueFirst, List.foldl_append]

/-! ## JS `Map` grouping folds

Both `prepareSankeyData`'s `linkMap` and `updateLinkHighlights`'s
`selectedByDimension` follow the same pattern: iterate a list, and for each
element either create a fresh map entry or update the existing entry for
its key in place.  `upsert`/`groupFold` model that pattern; `groupFold_eq`
characterises the resulting association list. -/

/-- `Map.set`-style update: if an entry with key `key` exists, update it in
place with `upd`; otherwise append a fresh entry `upd empty a`. -/
def upsert {α κ β : Type} [DecidableEq κ] (empty : β) (upd : β → α → β)
    (m : List (κ × β)) (key : κ) (a : α) : List (κ × β) :=
  if m.any (fun p => p.1 = key) then
    m.map (fun p => if p.1 = key then (p.1, upd p.2 a) else p)
  else m ++ [(key, upd empty a)]

/-- Fold a list into a key-grouped association list, JS-`Map` style
(keys in first-occurrence order). -/
def groupFold {α κ β : Type} [DecidableEq κ] (k : α → κ) (empty : β)
    (upd : β → α → β) (l : List α) : List (κ × β) :=
  l.foldl (fun m a => upsert empty upd m (k a) a) []

/-- The closed form `groupFold` is proved equal to. -/
def groupSpec {α κ β : Type} [DecidableEq κ] (k : α → κ) (empty : β)
    (upd : β → α → β) (l : List α) : List (κ × β) :=
  (uniqueFirst (l.map k)).map
    (fun K => (K, (l.filter (fun a => k a = K)).foldl upd empty))

theorem groupFold_concat {α κ β : Type} [DecidableEq κ] (k : α → κ) (e : β)
    (u : β → α → β) (l : List α) (a : α) :
    groupFold k e u (l ++ [a]) = upsert e u (groupFold k e u l) (k a) a := by
  simp [groupFold, List.foldl_append]

/-- `groupFold` computes, for every distinct key in first-occurrence order,
the fold of `upd` over exactly the elements carrying that key. -/
theorem groupFold_eq {α κ β : Type} [DecidableEq κ] (k : α → κ) (e : β)
    (u : β → α → β) (l : List α) :
    groupFold k e u l = groupSpec k e u l := by
  induction l using List.reverseRecOn with
  | nil => rfl
  | append_singleton l a ih =>
    rw [groupFold_concat, ih]
    unfold groupSpec
    simp only [List.map_append, List.map_cons, List.map_nil]
    rw [uniqueFirst_concat]
    by_cases hmem : k a ∈ uniqueFirst (l.map k)
    · -- existing key: `upsert` hits the update branch
      have hany : ((uniqueFirst (l.map k)).map
          (fun K => (K, (l.filter (fun x => k x = K)).foldl u e))).any
            (fun p => p.1 = k a) = true := by
        rw [List.any_eq_true]
        exact ⟨_, List.mem_map_of_mem _ hmem, by simp⟩
      simp only [upsert, insertUnique, hmem, if_pos, hany, if_true]
      rw [List.map_map]
      apply List.map_congr_left
      intro K hK
      by_cases hKa : K = k a
      · subst hKa
        simp only [Function.comp_apply, if_pos rfl]
        rw [List.filter_append]
        simp [List.foldl_append]
      · simp only [Function.comp_apply, if_neg hKa]
        rw [List.filter_append]
        have : (fun x => decide (k x = K)) a = false := by
          simp; intro h; exact hKa h.symm
        simp [this]
    · -- fresh key: `upsert` appends
      have hany : ((uniqueFirst (l.map k)).map
          (fun K => (K, (l.filter (fun x => k x = K)).foldl u e))).any
            (fun p => p.1 = k a) = false := by
        rw [List.any_eq_false]
        rintro ⟨K, b⟩ hp
        obtain ⟨K', hK', hEq⟩ := List.mem_map.mp hp
        simp only [Prod.mk.injEq] at hEq
        simp only [decide_eq_true_eq]
        intro h
        exact hmem (by rw [← h, ← hEq.1] ; exact hK')
      simp only [upsert, insertUnique, hmem, if_neg, hany]
      simp only [Bool.false_eq_true, if_false, List.map_append]
      congr 1
      · apply List.map_congr_left
        intro K hK
        have hKa : ¬ k a = K := by
          intro h; exact hmem (h ▸ hK)
        rw [List.filter_append]
        have : (fun x => decide (k x = K)) a = false := by simp [hKa]
        simp [this]
      · have : l.filter (fun x => k x = k a) = [] := by
          rw [List.filter_eq_nil_iff]
          intro x hx
          simp only [decide_eq_true_eq]
          intro h
          exact hmem (mem_uniqueFirst.mpr (h ▸ List.mem_map_of_mem k hx))
        simp [List.filter_append, this]

/-! ## Sums over key-partitioned lists -/

theorem sum_map_add_split {α : Type} (f g : α → ℚ) (l : List α) :
    (l.map (fun x => f x + g x)).sum = (l.map f).sum + (l.map g).sum := by
  induction l with
  | nil => simp
  | cons x xs ih => simp [ih]; ring

theorem sum_map_ite_eq {κ : Type} [DecidableEq κ] (l : List κ) (c : κ) (w : ℚ)
    (h : l.Nodup) :
    (l.map (fun K => if K = c then w else 0)).sum = if c ∈ l then w else 0 := by
  induction l with
  | nil => simp
  | cons x xs ih =>
    rw [List.nodup_cons] at h
    by_cases hx : x = c
    · subst hx
      simp [h.1, ih h.2]
    · have : (c ∈ x :: xs) = (c ∈ xs) := by
        simp [List.mem_cons, Ne.symm hx]
      simp [hx, ih h.2, this]

/-- Summing a weight over each key-group, over any `P`-selected subset of
the distinct keys, equals summing it over the elements whose key satisfies
`P`. -/
theorem sum_partition {α κ : Type} [DecidableEq κ] (k : α → κ) (w : α → ℚ)
    (P : κ → Bool) (l : List α) :
    (((uniqueFirst (l.map k)).filter P).map
        (fun K => ((l.filter (fun a => k a = K)).map w).sum)).sum
      = ((l.filter (fun a => P (k a))).map w).sum := by
  induction l using List.reverseRecOn with
  | nil => rfl
  | append_singleton l a ih =>
    have hterm : ∀ K, (((l ++ [a]).filter (fun x => k x = K)).map w).sum
        = ((l.filter (fun x => k x = K)).map w).sum
          + (if K = k a then w a else 0) := by
      intro K
      rw [List.filter_append, List.map_append, List.sum_append]
      congr 1
      by_cases h : K = k a
      · subst h; simp
      · have hd : ¬ (k a = K) := fun hc => h hc.symm
        simp [hd, h]
    have hRHS : (((l ++ [a]).filter (fun x => P (k x))).map w).sum
        = ((l.filter (fun x => P (k x))).map w).sum
          + (if P (k a) then w a else 0) := by
      rw [List.filter_append, List.map_append, List.sum_append]
      congr 1
      by_cases h : P (k a) <;> simp [h]
    simp only [List.map_append, List.map_cons, List.map_nil]
    rw [uniqueFirst_concat, hRHS]
    by_cases hmem : k a ∈ uniqueFirst (l.map k)
    · rw [show insertUnique (uniqueFirst (l.map k)) (k a)
          = uniqueFirst (l.map k) from by simp [insertUnique, hmem]]
      have h1 : (((uniqueFirst (l.map k)).filter P).map
            (fun K => (((l ++ [a]).filter (fun x => k x = K)).map w).sum))
          = ((uniqueFirst (l.map k)).filter P).map
            (fun K => ((l.filter (fun x => k x = K)).map w).sum
              + (if K = k a then w a else 0)) :=
        List.map_congr_left (fun K _ => hterm K)
      rw [h1, sum_map_add_split, ih,
        sum_map_ite_eq _ _ _ ((nodup_uniqueFirst _).filter P)]
      congr 1
      by_cases hP : P (k a)
      · rw [if_pos (List.mem_filter.mpr ⟨hmem, hP⟩), if_pos hP]
      · rw [if_neg (fun hc => hP (List.mem_filter.mp hc).2), if_neg hP]
    · rw [show insertUnique (uniqueFirst (l.map k)) (k a)
          = uniqueFirst (l.map k) ++ [k a] from by simp [insertUnique, hmem]]
      rw [List.filter_append, List.map_append, List.sum_append]
      have h1 : ((uniqueFirst (l.map k)).filter P).map
            (fun K => (((l ++ [a]).filter (fun x => k x = K)).map w).sum)
          = ((uniqueFirst (l.map k)).filter P).map
            (fun K => ((l.filter (fun x => k x = K)).map w).sum) := by
        apply List.map_congr_left
        intro K hK
        rw [hterm K, if_neg, add_zero]
        intro h
        exact hmem (h ▸ (List.mem_filter.mp hK).1)
      rw [h1, ih]
      congr 1
      have hfl : l.filter (fun x => k x = k a) = [] := by
        rw [List.filter_eq_nil_iff]
        intro x hx
        simp only [decide_eq_true_eq]
        intro h
        exact hmem (mem_uniqueFirst.mpr (h ▸ List.mem_map_of_mem k hx))
      by_cases hP : P (k a)
      · simp only [List.filter_cons, hP, if_true, List.filter_nil]
        rw [List.map_cons, List.map_nil, List.sum_cons, List.sum_nil,
          hterm (k a), hfl, if_pos rfl]
        simp
      · simp [hP]

/-! ## JS string helpers (`split`, `trim`, `parseFloat`)

Re-implemented structurally over `String.data` so they both evaluate in
the kernel and support the lemmas below.  JS `trim` strips a larger
Unicode whitespace class and `parseFloat` additionally accepts
`Infinity`; neither difference is exercised anywhere in this file. -/

/-- `leadsWith p s`: `p` is an initial run of `s`. -/
def leadsWith : List Char → List Char → Bool
  | [], _ => true
  | _ :: _, [] => false
  | a :: as, b :: bs => a = b && leadsWith as bs

/-- The piece of `s` before the first occurrence of `sep`, and the rest of
`s` after that occurrence (`none` when `sep` does not occur). -/
def firstPiece (sep : List Char) : List Char → List Char × Option (List Char)
  | [] => ([], none)
  | c :: rest =>
    if leadsWith sep (c :: rest) then ([], some ((c :: rest).drop sep.length))
    else
      match firstPiece sep rest with
      | (p, r) => (c :: p, r)

/-- Fuelled splitting loop; `fuel = length + 1` always suffices for a
non-empty separator. -/
def jsSplitGo (sep : List Char) : Nat → List Char → List (List Char)
  | 0, s => [s]
  | fuel + 1, s =>
    match firstPiece sep s with
    | (_, none) => [s]
    | (p, some rest) => p :: jsSplitGo sep fuel rest

/-- JS `s.split(sep)` for a non-empty separator (the empty-separator case,
which JS treats as splitting between every character, is never used by the
source). -/
def jsSplit (sep s : String) : List String :=
  match sep.data with
  | [] => [s]
  | _ :: _ => (jsSplitGo sep.data (s.data.length + 1) s.data).map String.mk

/-- JS whitespace test (core subset). -/
def isJsWS (c : Char) : Bool := c = ' ' || c = '\t' || c = '\n' || c = '\r'

/-- JS `s.trim()`. -/
def jsTrim (s : String) : String :=
  String.mk (((s.data.dropWhile isJsWS).reverse.dropWhile isJsWS).reverse)

/-- Digit run → natural number. -/
def digitsToNat (l : List Char) : Nat :=
  l.foldl (fun n c => n * 10 + (c.toNat - '0'.toNat)) 0

/-- JS `parseFloat` on the finite-numeral fragment: optional sign, digit
run, optional fraction, optional exponent; longest valid numeric prefix;
`none` models `NaN`. -/
def jsParseFloat (s : String) : Option ℚ :=
  let t0 := s.data.dropWhile isJsWS
  let signT : ℚ × List Char :=
    match t0 with
    | '+' :: t => (1, t)
    | '-' :: t => (-1, t)
    | t => (1, t)
  let intPart := signT.2.takeWhile Char.isDigit
  let t2 := signT.2.dropWhile Char.isDigit
  let fracT : List Char × List Char :=
    match t2 with
    | '.' :: t => (t.takeWhile Char.isDigit, t.dropWhile Char.isDigit)
    | t => ([], t)
  if intPart = [] ∧ fracT.1 = [] then none
  else
    let mant : ℚ := (digitsToNat intPart : ℚ)
      + (digitsToNat fracT.1 : ℚ) / ((10 : ℚ) ^ fracT.1.length)
    let exp : ℤ :=
      match fracT.2 with
      | 'e' :: t | 'E' :: t =>
        let esignT : ℤ × List Char :=
          match t with
          | '+' :: t' => (1, t')
          | '-' :: t' => (-1, t')
          | t' => (1, t')
        let eDigits := esignT.2.takeWhile Char.isDigit
        if eDigits = [] then 0 else esignT.1 * digitsToNat eDigits
      | _ => 0
    some (signT.1 * mant * (10 : ℚ) ^ exp)

/-- The `" → "` separator used for link keys. -/
def arrowSep : List Char := [' ', '→', ' ']

theorem leadsWith_arrow_single (c : Char) : leadsWith arrowSep [c] = false := by
  simp [leadsWith, arrowSep]

theorem leadsWith_arrow_fst {c : Char} (t : List Char) (h : c ≠ ' ') :
    leadsWith arrowSep (c :: t) = false := by
  have : (' ' = c) = False := by
    simp; exact fun hh => h hh.symm
  cases t <;> simp [leadsWith, arrowSep, this]

theorem leadsWith_arrow_snd {c d : Char} (t : List Char) (h : d ≠ '→') :
    leadsWith arrowSep (c :: d :: t) = false := by
  have : ('→' = d) = False := by
    simp; exact fun hh => h hh.symm
  simp [leadsWith, arrowSep, this]

theorem firstPiece_arrow_none {s : List Char} (h : '→' ∉ s) :
    firstPiece arrowSep s = (s, none) := by
  induction s with
  | nil => rfl
  | cons c rest ih =>
    have hlw : leadsWith arrowSep (c :: rest) = false := by
      match rest with
      | [] => exact leadsWith_arrow_single c
      | d :: t =>
        exact leadsWith_arrow_snd t (fun hd => h (by rw [← hd]; simp))
    rw [firstPiece, hlw]
    simp only [Bool.false_eq_true, if_false]
    rw [ih (fun hm => h (List.mem_cons_of_mem c hm))]

theorem firstPiece_arrow_roundtrip {a b : List Char} (ha : '→' ∉ a) :
    firstPiece arrowSep (a ++ arrowSep ++ b) = (a, some b) := by
  induction a with
  | nil =>
    show firstPiece arrowSep (' ' :: '→' :: ' ' :: b) = ([], some b)
    rw [firstPiece]
    have : leadsWith arrowSep (' ' :: '→' :: ' ' :: b) = true := by
      simp [leadsWith, arrowSep]
    rw [this]
    simp [arrowSep]
  | cons c a' ih =>
    have ha' : '→' ∉ a' := fun hm => ha (List.mem_cons_of_mem c hm)
    have ihs := ih ha'
    have hlw : leadsWith arrowSep (c :: (a' ++ arrowSep ++ b)) = false := by
      match a' with
      | [] => exact leadsWith_arrow_snd _ (by decide)
      | d :: t =>
        exact leadsWith_arrow_snd _ (fun hd => ha (by rw [← hd]; simp))
    rw [List.cons_append, List.cons_append, firstPiece, hlw]
    simp only [Bool.false_eq_true, if_false]
    rw [ihs]

theorem jsSplitGo_arrow_none {s : List Char} (h : '→' ∉ s) (fuel : Nat) :
    jsSplitGo arrowSep fuel s = [s] := by
  cases fuel with
  | zero => rfl
  | succ n =>
    rw [jsSplitGo]
    split
    · rfl
    · rename_i p rest heq
      rw [firstPiece_arrow_none h] at heq
      cases heq

theorem jsSplitGo_arrow_pair {a b : List Char} (ha : '→' ∉ a) (hb : '→' ∉ b)
    {fuel : Nat} (hf : 1 ≤ fuel) :
    jsSplitGo arrowSep fuel (a ++ arrowSep ++ b) = [a, b] := by
  cases fuel with
  | zero => omega
  | succ n =>
    rw [jsSplitGo]
    split
    · rename_i s' heq
      rw [firstPiece_arrow_roundtrip ha] at heq
      cases heq
    · rename_i p rest heq
      rw [firstPiece_arrow_roundtrip ha] at heq
      cases heq
      rw [jsSplitGo_arrow_none hb]

theorem string_eta (s : String) : String.mk s.data = s := rfl

/-- JS `(a + " → " + b).split(" → ")` recovers `[a, b]` when neither part
contains the arrow character. -/
theorem jsSplit_arrow (a b : String) (ha : '→' ∉ a.data) (hb : '→' ∉ b.data) :
    jsSplit " → " (a ++ " → " ++ b) = [a, b] := by
  have hdata : (a ++ " → " ++ b).data = a.data ++ arrowSep ++ b.data := by
    simp [String.data_append]
    rfl
  rw [jsSplit]
  show (jsSplitGo " → ".data ((a ++ " → " ++ b).data.length + 1)
    (a ++ " → " ++ b).data).map String.mk = [a, b]
  rw [hdata]
  rw [show " → ".data = arrowSep from rfl]
  rw [jsSplitGo_arrow_pair ha hb (by omega)]
  simp [string_eta]

/-- Splitting off the part before the first `':'` is unambiguous when
neither candidate head contains `':'`. -/
theorem append_colon_inj : ∀ (a b u v : List Char),
    ':' ∉ a → ':' ∉ b → a ++ ':' :: u = b ++ ':' :: v → a = b ∧ u = v := by
  intro a
  induction a with
  | nil =>
    intro b u v _ hb heq
    match b with
    | [] => simp at heq; simp [heq]
    | c :: b' =>
      simp only [List.nil_append, List.cons_append, List.cons.injEq] at heq
      obtain ⟨hc, -⟩ := heq
      exact absurd (by rw [← hc]; exact List.mem_cons_self ':' b') hb
  | cons c a' ih =>
    intro b u v ha hb heq
    match b with
    | [] =>
      simp only [List.nil_append, List.cons_append, List.cons.injEq] at heq
      obtain ⟨hc, -⟩ := heq
      exact absurd (by rw [hc]; exact List.mem_cons_self ':' a') ha
    | d :: b' =>
      simp only [List.cons_append, List.cons.injEq] at heq
      obtain ⟨rfl, heq⟩ := heq
      have := ih b' u v (fun hm => ha (List.mem_cons_of_mem _ hm))
        (fun hm => hb (List.mem_cons_of_mem _ hm)) heq
      exact ⟨by rw [this.1], this.2⟩

/-! ## Aggregator (`prepareSankeyData`, src/app.ts lines 215–299) -/

/-- JS template-literal rendering of a possibly-`undefined` string. -/
def optStr : Option String → String
  | some s => s
  | none => "undefined"

/-- Node identity string: `` `${header}:${value}` ``. -/
def nodeId (h : String) (v : Option String) : String := h ++ ":" ++ optStr v

/-- A Sankey node as built by `prepareSankeyData`. -/
structure SNode where
  id : String
  label : String
  header : String
  value : Option String
  dimIndex : Nat
  totalValue : ℚ
  deriving DecidableEq, Repr

instance : Inhabited SNode := ⟨⟨"", "", "", none, 0, 0⟩⟩

/-- The nodes of one dimension: one per distinct value, in first-occurrence
order, with `totalValue` the summed `count` of the matching records. -/
def dimNodes (data : List CSVRecord) (dimIndex : Nat) (header : String) :
    List SNode :=
  (uniqueFirst (data.map (fun r => r.get? header))).map (fun v =>
    { id := nodeId header v
      label := optStr v
      header := header
      value := v
      dimIndex := dimIndex
      totalValue := sumCounts (data.filter (fun r => r.get? header = v)) })

def mkNodesAux (data : List CSVRecord) : Nat → List String → List SNode
  | _, [] => []
  | dimIndex, h :: rest =>
    dimNodes data dimIndex h ++ mkNodesAux data (dimIndex + 1) rest

/-- The full node list (`dimensionHeaders.forEach` over dimensions). -/
def mkNodes (data : List CSVRecord) (hs : List String) : List SNode :=
  mkNodesAux data 0 hs

/-- `nodeMap.get id`: the JS `Map` was populated with `nodeMap.set(id,
nodeIndex)` as nodes were appended, so lookup returns the index of the
**last** node carrying `id` (later `set`s overwrite earlier ones). -/
def lastIdxOf (id : String) : List SNode → Option Nat
  | [] => none
  | n :: rest =>
    match lastIdxOf id rest with
    | some j => some (j + 1)
    | none => if n.id = id then some 0 else none

/-- A Sankey link as built by `prepareSankeyData`. -/
structure SLink where
  source : Nat
  target : Nat
  value : ℚ
  records : List CSVRecord
  sourceNode : String
  targetNode : String
  deriving DecidableEq, Repr

instance : Inhabited SLink := ⟨⟨0, 0, 0, [], "", ""⟩⟩

/-- `` `${sourceId} → ${targetId}` `` for one record. -/
def linkKeyOf (sH tH : String) (r : CSVRecord) : String :=
  nodeId sH (r.get? sH) ++ " → " ++ nodeId tH (r.get? tH)

/-- The `linkMap` of one adjacent-dimension pass: grouped by link key, each
entry accumulating `value += record.count` and `records.push(record)`. -/
def buildLinkMap (sH tH : String) (data : List CSVRecord) :
    List (String × (ℚ × List CSVRecord)) :=
  groupFold (linkKeyOf sH tH) ((0 : ℚ), ([] : List CSVRecord))
    (fun acc r => (acc.1 + r.count, acc.2 ++ [r])) data

/-- One adjacent-dimension pass of link creation: split each key back into
`[sourceId, targetId]`, look both up in the node map, and drop the entry if
either lookup fails. -/
def mkLinksForDim (nodes : List SNode) (data : List CSVRecord)
    (sH tH : String) : List SLink :=
  (buildLinkMap sH tH data).filterMap (fun entry =>
    let parts := jsSplit " → " entry.1
    match parts.get? 0, parts.get? 1 with
    | some sourceId, some targetId =>
      match lastIdxOf sourceId nodes, lastIdxOf targetId nodes with
      | some si, some ti =>
        some { source := si, target := ti, value := entry.2.1,
               records := entry.2.2, sourceNode := sourceId,
               targetNode := targetId }
      | _, _ => none
    | _, _ => none)

/-- All links: one pass per consecutive dimension pair. -/
def mkLinks (nodes : List SNode) (data : List CSVRecord) :
    List String → List SLink
  | [] => []
  | [_] => []
  | h1 :: h2 :: rest =>
    mkLinksForDim nodes data h1 h2 ++ mkLinks nodes data (h2 :: rest)

/-- `prepareSankeyData`: derived nodes and links. -/
structure SankeyData where
  nodes : List SNode
  links : List SLink
  deriving Repr

def prepareSankeyData (data : List CSVRecord) (dims : List String) :
    SankeyData :=
  let nodes := mkNodes data dims
  { nodes := nodes, links := mkLinks nodes data dims }

theorem foldl_sum_records (g : List CSVRecord) :
    ∀ (s : ℚ) (rs : List CSVRecord),
      g.foldl (fun acc r => (acc.1 + r.count, acc.2 ++ [r])) (s, rs)
        = (s + sumCounts g, rs ++ g) := by
  induction g with
  | nil => simp
  | cons r g ih =>
    intro s rs
    rw [List.foldl_cons, ih]
    simp only [sumCounts_cons, Prod.mk.injEq]
    constructor
    · ring
    · simp

/-- Closed form of the link map: for each distinct key (first-occurrence
order), the summed count and list of the records with that key. -/
theorem buildLinkMap_eq (sH tH : String) (data : List CSVRecord) :
    buildLinkMap sH tH data
      = (uniqueFirst (data.map (linkKeyOf sH tH))).map
        (fun K => (K, (sumCounts (data.filter (fun r => linkKeyOf sH tH r = K)),
                       data.filter (fun r => linkKeyOf sH tH r = K)))) := by
  rw [buildLinkMap, groupFold_eq, groupSpec]
  apply List.map_congr_left
  intro K _
  rw [foldl_sum_records]
  simp

/-! ## Structure of the node list -/

theorem string_data_inj {a b : String} (h : a.data = b.data) : a = b := by
  cases a; cases b; exact congrArg String.mk h

theorem nodeId_data (h : String) (v : String) :
    (nodeId h (some v)).data = h.data ++ ':' :: v.data := by
  show ((h ++ ":" ++ v).data) = h.data ++ ':' :: v.data
  rw [String.data_append, String.data_append, List.append_assoc]
  rfl

/-- `` `${h}:${v}` `` determines `h` and `v` when headers are colon-free
and the values are genuine strings. -/
theorem nodeId_inj {h1 h2 v1 v2 : String} (hc1 : ':' ∉ h1.data)
    (hc2 : ':' ∉ h2.data)
    (he : nodeId h1 (some v1) = nodeId h2 (some v2)) : h1 = h2 ∧ v1 = v2 := by
  have hd := congrArg String.data he
  rw [nodeId_data, nodeId_data] at hd
  obtain ⟨h1, h2⟩ := append_colon_inj _ _ _ _ hc1 hc2 hd
  exact ⟨string_data_inj h1, string_data_inj h2⟩

theorem mem_dimNodes {data : List CSVRecord} {d : Nat} {h : String} {n : SNode} :
    n ∈ dimNodes data d h ↔
      ∃ v, v ∈ uniqueFirst (data.map (fun r => r.get? h)) ∧
        n = ⟨nodeId h v, optStr v, h, v, d,
          sumCounts (data.filter (fun r => r.get? h = v))⟩ := by
  rw [dimNodes, List.mem_map]
  constructor
  · rintro ⟨v, hv, rfl⟩; exact ⟨v, hv, rfl⟩
  · rintro ⟨v, hv, rfl⟩; exact ⟨v, hv, rfl⟩

theorem dimIndex_of_mem_dimNodes {data : List CSVRecord} {d : Nat} {h : String}
    {n : SNode} (hn : n ∈ dimNodes data d h) : n.dimIndex = d := by
  obtain ⟨v, -, rfl⟩ := mem_dimNodes.mp hn
  rfl

theorem mem_mkNodesAux {data : List CSVRecord} {n : SNode} :
    ∀ {i : Nat} {hs : List String},
      n ∈ mkNodesAux data i hs ↔
        ∃ j hh, hs.get? j = some hh ∧ n ∈ dimNodes data (i + j) hh := by
  intro i hs
  induction hs generalizing i with
  | nil => simp [mkNodesAux]
  | cons h rest ih =>
    rw [mkNodesAux, List.mem_append, ih]
    constructor
    · rintro (hn | ⟨j, hh, hj, hn⟩)
      · exact ⟨0, h, rfl, by simpa using hn⟩
      · exact ⟨j + 1, hh, by simpa using hj,
          by rw [show i + (j + 1) = i + 1 + j by omega]; exact hn⟩
    · rintro ⟨j, hh, hj, hn⟩
      match j with
      | 0 =>
        left
        simp only [List.get?_cons_zero, Option.some.injEq] at hj
        subst hj
        simpa using hn
      | j + 1 =>
        right
        exact ⟨j, hh, by simpa using hj,
          by rw [show i + 1 + j = i + (j + 1) by omega]; exact hn⟩

/-- Every node of `prepareSankeyData` is the canonical node of some
dimension and some first-occurrence value of that dimension. -/
theorem node_shape {data : List CSVRecord} {hs : List String} {n : SNode}
    (hn : n ∈ mkNodes data hs) :
    ∃ hh, hs.get? n.dimIndex = some hh ∧ n.header = hh ∧
      n.value ∈ uniqueFirst (data.map (fun r => r.get? hh)) ∧
      n.id = nodeId hh n.value ∧ n.label = optStr n.value ∧
      n.totalValue = sumCounts (data.filter (fun r => r.get? hh = n.value)) := by
  obtain ⟨j, hh, hj, hn⟩ := mem_mkNodesAux.mp hn
  obtain ⟨v, hv, rfl⟩ := mem_dimNodes.mp hn
  refine ⟨hh, ?_, rfl, hv, rfl, rfl, rfl⟩
  simpa using hj

theorem node_exists {data : List CSVRecord} {hs : List String} {j : Nat}
    {hh : String} {v : Option String} (hj : hs.get? j = some hh)
    (hv : v ∈ uniqueFirst (data.map (fun r => r.get? hh))) :
    (⟨nodeId hh v, optStr v, hh, v, j,
      sumCounts (data.filter (fun r => r.get? hh = v))⟩ : SNode)
      ∈ mkNodes data hs := by
  rw [mkNodes, mem_mkNodesAux]
  exact ⟨j, hh, hj, by rw [Nat.zero_add]; exact mem_dimNodes.mpr ⟨v, hv, rfl⟩⟩

theorem mkNodesAux_dim_ge {data : List CSVRecord} :
    ∀ {i : Nat} {hs : List String} {n : SNode},
      n ∈ mkNodesAux data i hs → i ≤ n.dimIndex := by
  intro i hs n hn
  obtain ⟨j, hh, -, hn⟩ := mem_mkNodesAux.mp hn
  rw [dimIndex_of_mem_dimNodes hn]
  omega

/-- Nodes are appended dimension block by dimension block, so `dimIndex` is
nondecreasing along the node list. -/
theorem mkNodesAux_dim_pairwise (data : List CSVRecord) :
    ∀ (i : Nat) (hs : List String),
      (mkNodesAux data i hs).Pairwise (fun a b => a.dimIndex ≤ b.dimIndex) := by
  intro i hs
  induction hs generalizing i with
  | nil => exact List.Pairwise.nil
  | cons h rest ih =>
    rw [mkNodesAux, List.pairwise_append]
    refine ⟨?_, ih (i + 1), ?_⟩
    · rw [dimNodes, List.pairwise_map]
      exact List.pairwise_of_forall (fun _ _ => le_refl i)
    · intro a ha b hb
      rw [dimIndex_of_mem_dimNodes ha]
      have := mkNodesAux_dim_ge hb
      omega

/-- Within the node list, a strictly smaller dimension index means a
strictly smaller position. -/
theorem idx_lt_of_dim_lt {data : List CSVRecord} {hs : List String}
    {j j' : Nat} {n n' : SNode} (hj : (mkNodes data hs).get? j = some n)
    (hj' : (mkNodes data hs).get? j' = some n')
    (hdim : n.dimIndex < n'.dimIndex) : j < j' := by
  rw [mkNodes] at hj hj'
  by_contra hle
  push_neg at hle
  have hpw := mkNodesAux_dim_pairwise data 0 hs
  rw [List.pairwise_iff_get] at hpw
  rcases Nat.lt_or_ge j' j with hlt | hge
  · obtain ⟨hb, hget⟩ := List.get?_eq_some.mp hj
    obtain ⟨hb', hget'⟩ := List.get?_eq_some.mp hj'
    have := hpw ⟨j', hb'⟩ ⟨j, hb⟩ hlt
    rw [hget, hget'] at this
    omega
  · have : j = j' := by omega
    subst this
    rw [hj] at hj'
    cases hj'
    omega

/-! ## Clean datasets

The aggregator builds string keys `` `${header}:${value}` `` and
`` `${sourceId} → ${targetId}` `` and later re-parses them.  A dataset is
*clean* when that round trip is unambiguous: dimension names are distinct
and contain neither `':'` nor `'→'`, and every record has a value (no
`undefined`) free of `'→'` in every dimension. -/

/-- The property-read result is a genuine arrow-free string. -/
def valOk : Option String → Prop
  | some v => '→' ∉ v.data
  | none => False

instance (o : Option String) : Decidable (valOk o) :=
  match o with
  | some v => inferInstanceAs (Decidable ('→' ∉ v.data))
  | none => inferInstanceAs (Decidable False)

def CleanData (hs : List String) (data : List CSVRecord) : Prop :=
  hs.Nodup ∧ (∀ h ∈ hs, ':' ∉ h.data ∧ '→' ∉ h.data) ∧
    (∀ r ∈ data, ∀ h ∈ hs, valOk (r.get? h))

instance (hs : List String) (data : List CSVRecord) :
    Decidable (CleanData hs data) := by
  unfold CleanData; infer_instance

theorem valOk_iff {o : Option String} :
    valOk o ↔ ∃ v, o = some v ∧ '→' ∉ v.data := by
  cases o <;> simp [valOk]

/-- In a clean dataset, every first-occurrence value of a listed dimension
is a genuine arrow-free string. -/
theorem clean_value_ok {hs : List String} {data : List CSVRecord}
    (hcl : CleanData hs data) {h : String} (hh : h ∈ hs) {v : Option String}
    (hv : v ∈ uniqueFirst (data.map (fun r => r.get? h))) : valOk v := by
  rw [mem_uniqueFirst, List.mem_map] at hv
  obtain ⟨r, hr, rfl⟩ := hv
  exact hcl.2.2 r hr h hh

/-- Node ids are pairwise distinct for a clean dataset. -/
theorem mkNodesAux_ids_pairwise (data : List CSVRecord) :
    ∀ (i : Nat) (hs : List String), hs.Nodup →
      (∀ h ∈ hs, ':' ∉ h.data) →
      (∀ r ∈ data, ∀ h ∈ hs, valOk (r.get? h)) →
      (mkNodesAux data i hs).Pairwise (fun a b => a.id ≠ b.id) := by
  intro i hs
  induction hs generalizing i with
  | nil => intro _ _ _; exact List.Pairwise.nil
  | cons h rest ih =>
    intro hnd hcol hval
    rw [mkNodesAux, List.pairwise_append]
    have hvOk : ∀ v ∈ uniqueFirst (data.map (fun r => r.get? h)), valOk v := by
      intro v hv
      rw [mem_uniqueFirst, List.mem_map] at hv
      obtain ⟨r, hr, rfl⟩ := hv
      exact hval r hr h (List.mem_cons_self h rest)
    refine ⟨?_, ?_, ?_⟩
    · -- distinct values of one dimension give distinct ids
      rw [dimNodes, List.pairwise_map]
      have hnodup : List.Pairwise (fun v v' => v ≠ v')
          (uniqueFirst (data.map (fun r => r.get? h))) :=
        nodup_uniqueFirst _
      refine List.Pairwise.imp_of_mem ?_ hnodup
      intro v v' hv hv' hne hid
      obtain ⟨wa, rfl, -⟩ := valOk_iff.mp (hvOk v hv)
      obtain ⟨wb, rfl, -⟩ := valOk_iff.mp (hvOk v' hv')
      simp only at hid
      exact hne (congrArg some
        (nodeId_inj (hcol h (List.mem_cons_self h rest))
          (hcol h (List.mem_cons_self h rest)) hid).2)
    · exact ih (i + 1) hnd.of_cons
        (fun h' hh' => hcol h' (List.mem_cons_of_mem h hh'))
        (fun r hr h' hh' => hval r hr h' (List.mem_cons_of_mem h hh'))
    · -- a node of this dimension and a node of a later one differ
      intro a ha b hb
      obtain ⟨va, hva, rfl⟩ := mem_dimNodes.mp ha
      obtain ⟨j, h', hj', hb'⟩ := mem_mkNodesAux.mp hb
      obtain ⟨vb, hvb, rfl⟩ := mem_dimNodes.mp hb'
      have hmem' : h' ∈ rest := List.get?_mem hj'
      have hOka : valOk va := hvOk va hva
      have hOkb : valOk vb := by
        rw [mem_uniqueFirst, List.mem_map] at hvb
        obtain ⟨r, hr, rfl⟩ := hvb
        exact hval r hr h' (List.mem_cons_of_mem h hmem')
      rw [valOk_iff] at hOka hOkb
      obtain ⟨wa, rfl, -⟩ := hOka
      obtain ⟨wb, rfl, -⟩ := hOkb
      intro hid
      have := nodeId_inj (hcol h (List.mem_cons_self h rest))
        (hcol h' (List.mem_cons_of_mem h hmem')) hid
      rw [List.nodup_cons] at hnd
      exact hnd.1 (this.1 ▸ hmem')

theorem mkNodes_ids_nodup {hs : List String} {data : List CSVRecord}
    (hcl : CleanData hs data) : ((mkNodes data hs).map SNode.id).Nodup := by
  have := mkNodesAux_ids_pairwise data 0 hs hcl.1
    (fun h hh => (hcl.2.1 h hh).1) hcl.2.2
  rw [List.Nodup, List.pairwise_map]
  exact this

/-! ## `nodeMap.get` (`lastIdxOf`) -/

theorem lastIdxOf_spec {id : String} :
    ∀ {ns : List SNode} {j : Nat}, lastIdxOf id ns = some j →
      ∃ n, ns.get? j = some n ∧ n.id = id := by
  intro ns
  induction ns with
  | nil => intro j h; cases h
  | cons m rest ih =>
    intro j h
    rw [lastIdxOf] at h
    cases hrest : lastIdxOf id rest with
    | some j' =>
      rw [hrest] at h
      cases h
      obtain ⟨n, hn, hid⟩ := ih hrest
      exact ⟨n, by simpa using hn, hid⟩
    | none =>
      rw [hrest] at h
      by_cases hm : m.id = id
      · rw [if_pos hm] at h
        cases h
        exact ⟨m, rfl, hm⟩
      · rw [if_neg hm] at h
        cases h

theorem lastIdxOf_eq_none {id : String} :
    ∀ {ns : List SNode}, (∀ n ∈ ns, n.id ≠ id) → lastIdxOf id ns = none := by
  intro ns
  induction ns with
  | nil => intro _; rfl
  | cons m rest ih =>
    intro h
    rw [lastIdxOf, ih (fun n hn => h n (List.mem_cons_of_mem m hn)),
      if_neg (h m (List.mem_cons_self m rest))]

/-- With pairwise-distinct ids, `nodeMap.get` inverts node indexing. -/
theorem lastIdxOf_of_get? :
    ∀ {ns : List SNode}, (ns.map SNode.id).Nodup →
      ∀ {j : Nat} {n : SNode}, ns.get? j = some n →
        lastIdxOf n.id ns = some j := by
  intro ns
  induction ns with
  | nil => intro _ j n h; cases h
  | cons m rest ih =>
    intro hnd j n hget
    rw [List.map_cons, List.nodup_cons] at hnd
    match j with
    | 0 =>
      simp only [List.get?_cons_zero, Option.some.injEq] at hget
      have hnone : lastIdxOf n.id rest = none := by
        apply lastIdxOf_eq_none
        intro n' hn' he
        refine hnd.1 ?_
        rw [hget, ← he]
        exact List.mem_map_of_mem SNode.id hn'
      rw [lastIdxOf, hnone, if_pos (by rw [hget])]
    | j + 1 =>
      simp only [List.get?_cons_succ] at hget
      rw [lastIdxOf, ih hnd.2 hget]

/-! ## Clean characterisation of the link construction -/

theorem uniqueFirst_map_injOn {α β : Type} [DecidableEq α] [DecidableEq β]
    (f : α → β) (l : List α)
    (hinj : ∀ a ∈ l, ∀ b ∈ l, f a = f b → a = b) :
    uniqueFirst (l.map f) = (uniqueFirst l).map f := by
  induction l using List.reverseRecOn with
  | nil => rfl
  | append_singleton l a ih =>
    have hinj' : ∀ x ∈ l, ∀ y ∈ l, f x = f y → x = y := fun x hx y hy =>
      hinj x (List.mem_append_left _ hx) y (List.mem_append_left _ hy)
    simp only [List.map_append, List.map_cons, List.map_nil]
    rw [uniqueFirst_concat, uniqueFirst_concat, ih hinj']
    by_cases hmem : a ∈ uniqueFirst l
    · have : f a ∈ (uniqueFirst l).map f := List.mem_map_of_mem f hmem
      simp [insertUnique, hmem, this]
    · have : f a ∉ (uniqueFirst l).map f := by
        intro hc
        obtain ⟨b, hb, hfb⟩ := List.mem_map.mp hc
        have : b = a := hinj b
          (List.mem_append_left _ (mem_uniqueFirst.mp hb)) a
          (List.mem_append_right _ (List.mem_singleton_self a)) hfb
        exact hmem (this ▸ hb)
      simp [insertUnique, hmem, this]

theorem filterMap_eq_map_of_mem {α β : Type} {g : α → Option β} {f : α → β}
    {l : List α} (h : ∀ a ∈ l, g a = some (f a)) :
    l.filterMap g = l.map f := by
  induction l with
  | nil => rfl
  | cons a l ih =>
    rw [List.filterMap_cons, h a (List.mem_cons_self a l), List.map_cons,
      ih (fun x hx => h x (List.mem_cons_of_mem a hx))]

theorem arrow_not_mem_nodeId {h v : String} (hh : '→' ∉ h.data)
    (hv : '→' ∉ v.data) : '→' ∉ (nodeId h (some v)).data := by
  rw [nodeId_data]
  intro hc
  rcases List.mem_append.mp hc with hc | hc
  · exact hh hc
  · rcases List.mem_cons.mp hc with hc | hc
    · cases hc
    · exact hv hc

/-- The pair-valued key of one record for one adjacent-dimension pass. -/
def pairKey (sH tH : String) (vv : Option String × Option String) : String :=
  nodeId sH vv.1 ++ " → " ++ nodeId tH vv.2

theorem linkKeyOf_eq_pairKey (sH tH : String) (r : CSVRecord) :
    linkKeyOf sH tH r = pairKey sH tH (r.get? sH, r.get? tH) := rfl

theorem pairKey_split {sH tH : String} (hsa : '→' ∉ sH.data)
    (hta : '→' ∉ tH.data) {v w : String} (hv : '→' ∉ v.data)
    (hw : '→' ∉ w.data) :
    jsSplit " → " (pairKey sH tH (some v, some w))
      = [nodeId sH (some v), nodeId tH (some w)] :=
  jsSplit_arrow _ _ (arrow_not_mem_nodeId hsa hv) (arrow_not_mem_nodeId hta hw)

theorem pairKey_inj {sH tH : String} (hsc : ':' ∉ sH.data)
    (hsa : '→' ∉ sH.data) (htc : ':' ∉ tH.data) (hta : '→' ∉ tH.data)
    {v1 w1 v2 w2 : String} (hv1 : '→' ∉ v1.data) (hw1 : '→' ∉ w1.data)
    (hv2 : '→' ∉ v2.data) (hw2 : '→' ∉ w2.data)
    (he : pairKey sH tH (some v1, some w1) = pairKey sH tH (some v2, some w2)) :
    v1 = v2 ∧ w1 = w2 := by
  have := congrArg (jsSplit " → ") he
  rw [pairKey_split hsa hta hv1 hw1, pairKey_split hsa hta hv2 hw2] at this
  simp only [List.cons.injEq, and_true] at this
  exact ⟨(nodeId_inj hsc hsc this.1).2, (nodeId_inj htc htc this.2).2⟩

/-- In a clean dataset, looking up the id built from dimension `d`'s header
and one of its first-occurrence values finds exactly the canonical node of
that dimension. -/
theorem clean_lastIdxOf {hs : List String} {data : List CSVRecord}
    (hcl : CleanData hs data) {d : Nat} {hh : String}
    (hd : hs.get? d = some hh) {v : Option String}
    (hv : v ∈ uniqueFirst (data.map (fun r => r.get? hh))) :
    ∃ j, lastIdxOf (nodeId hh v) (mkNodes data hs) = some j ∧
      (mkNodes data hs).get? j = some
        ⟨nodeId hh v, optStr v, hh, v, d,
          sumCounts (data.filter (fun r => r.get? hh = v))⟩ := by
  have hmem := node_exists hd hv
  obtain ⟨j, hj⟩ := List.mem_iff_get?.mp hmem
  exact ⟨j, lastIdxOf_of_get? (mkNodes_ids_nodup hcl) hj, hj⟩

/-- The canonical link of one value pair in one adjacent-dimension pass. -/
def canonLink (nodes : List SNode) (data : List CSVRecord) (sH tH : String)
    (vv : Option String × Option String) : SLink :=
  { source := (lastIdxOf (nodeId sH vv.1) nodes).getD 0
    target := (lastIdxOf (nodeId tH vv.2) nodes).getD 0
    value := sumCounts (data.filter (fun r => (r.get? sH, r.get? tH) = vv))
    records := data.filter (fun r => (r.get? sH, r.get? tH) = vv)
    sourceNode := nodeId sH vv.1
    targetNode := nodeId tH vv.2 }

/-- For a clean dataset the string round trip through `linkKey.split(' → ')`
and `nodeMap.get` loses nothing: one adjacent-dimension pass produces
exactly one canonical link per distinct (source value, target value) pair,
in first-occurrence order. -/
theorem mkLinksForDim_clean {hs : List String} {data : List CSVRecord}
    (hcl : CleanData hs data) {d : Nat} {sH tH : String}
    (hsd : hs.get? d = some sH) (htd : hs.get? (d + 1) = some tH) :
    mkLinksForDim (mkNodes data hs) data sH tH
      = (uniqueFirst (data.map (fun r => (r.get? sH, r.get? tH)))).map
          (canonLink (mkNodes data hs) data sH tH) := by
  have hsmem : sH ∈ hs := List.get?_mem hsd
  have htmem : tH ∈ hs := List.get?_mem htd
  obtain ⟨hsc, hsa⟩ := hcl.2.1 sH hsmem
  obtain ⟨htc, hta⟩ := hcl.2.1 tH htmem
  have hvOk : ∀ r ∈ data, valOk (r.get? sH) ∧ valOk (r.get? tH) :=
    fun r hr => ⟨hcl.2.2 r hr sH hsmem, hcl.2.2 r hr tH htmem⟩
  have hmapkey : data.map (linkKeyOf sH tH)
      = (data.map (fun r => (r.get? sH, r.get? tH))).map (pairKey sH tH) := by
    rw [List.map_map]; rfl
  have hinj : ∀ a ∈ data.map (fun r => (r.get? sH, r.get? tH)),
      ∀ b ∈ data.map (fun r => (r.get? sH, r.get? tH)),
      pairKey sH tH a = pairKey sH tH b → a = b := by
    rintro a ha b hb he
    obtain ⟨r1, hr1, rfl⟩ := List.mem_map.mp ha
    obtain ⟨r2, hr2, rfl⟩ := List.mem_map.mp hb
    obtain ⟨v1, he1, hv1⟩ := valOk_iff.mp (hvOk r1 hr1).1
    obtain ⟨w1, he1', hw1⟩ := valOk_iff.mp (hvOk r1 hr1).2
    obtain ⟨v2, he2, hv2⟩ := valOk_iff.mp (hvOk r2 hr2).1
    obtain ⟨w2, he2', hw2⟩ := valOk_iff.mp (hvOk r2 hr2).2
    rw [he1, he1', he2, he2'] at he ⊢
    have := pairKey_inj hsc hsa htc hta hv1 hw1 hv2 hw2 he
    rw [this.1, this.2]
  rw [mkLinksForDim, buildLinkMap_eq, hmapkey,
    uniqueFirst_map_injOn _ _ hinj, List.map_map, List.filterMap_map]
  apply filterMap_eq_map_of_mem
  intro vv hvv
  have hvvmem : vv ∈ data.map (fun r => (r.get? sH, r.get? tH)) :=
    mem_uniqueFirst.mp hvv
  obtain ⟨r, hr, hpair⟩ := List.mem_map.mp hvvmem
  have h1 : valOk vv.1 := by rw [← hpair]; exact (hvOk r hr).1
  have h2 : valOk vv.2 := by rw [← hpair]; exact (hvOk r hr).2
  have hv1mem : vv.1 ∈ uniqueFirst (data.map (fun r => r.get? sH)) := by
    rw [mem_uniqueFirst, ← hpair]
    exact List.mem_map_of_mem _ hr
  have hv2mem : vv.2 ∈ uniqueFirst (data.map (fun r => r.get? tH)) := by
    rw [mem_uniqueFirst, ← hpair]
    exact List.mem_map_of_mem _ hr
  obtain ⟨jS, hlS, hgS⟩ := clean_lastIdxOf hcl hsd hv1mem
  obtain ⟨jT, hlT, hgT⟩ := clean_lastIdxOf hcl htd hv2mem
  have hfilter : data.filter (fun r => linkKeyOf sH tH r = pairKey sH tH vv)
      = data.filter (fun r => (r.get? sH, r.get? tH) = vv) := by
    apply List.filter_congr
    intro x hx
    simp only [decide_eq_decide]
    constructor
    · intro hk
      exact hinj _ (List.mem_map_of_mem _ hx) vv hvvmem hk
    · intro hk
      rw [linkKeyOf_eq_pairKey, hk]
  obtain ⟨x, y⟩ := vv
  obtain ⟨v, hev, hv⟩ := valOk_iff.mp h1
  obtain ⟨w, hew, hw⟩ := valOk_iff.mp h2
  simp only at hev hew
  subst hev
  subst hew
  simp only [Function.comp_apply]
  rw [hfilter]
  show (match (jsSplit " → " (pairKey sH tH (some v, some w))).get? 0,
        (jsSplit " → " (pairKey sH tH (some v, some w))).get? 1 with
    | some sourceId, some targetId =>
      match lastIdxOf sourceId (mkNodes data hs),
          lastIdxOf targetId (mkNodes data hs) with
      | some si, some ti =>
        some { source := si, target := ti,
               value := sumCounts (data.filter
                 (fun r => (r.get? sH, r.get? tH) = (some v, some w))),
               records := data.filter
                 (fun r => (r.get? sH, r.get? tH) = (some v, some w)),
               sourceNode := sourceId, targetNode := targetId }
      | _, _ => none
    | _, _ => none)
    = some (canonLink (mkNodes data hs) data sH tH (some v, some w))
  rw [pairKey_split hsa hta hv hw]
  show (match lastIdxOf (nodeId sH (some v)) (mkNodes data hs),
      lastIdxOf (nodeId tH (some w)) (mkNodes data hs) with
    | some si, some ti =>
      some { source := si, target := ti,
             value := sumCounts (data.filter
               (fun r => (r.get? sH, r.get? tH) = (some v, some w))),
             records := data.filter
               (fun r => (r.get? sH, r.get? tH) = (some v, some w)),
             sourceNode := nodeId sH (some v), targetNode := nodeId tH (some w) }
    | _, _ => none)
    = some (canonLink (mkNodes data hs) data sH tH (some v, some w))
  rw [hlS, hlT]
  rw [canonLink]
  simp only [hlS, hlT, Option.getD_some]

/-- `nodes[i]` (always in range where the source uses it). -/
def nodeAt (nodes : List SNode) (i : Nat) : SNode :=
  (nodes.get? i).getD default

theorem nodeAt_of_get? {nodes : List SNode} {i : Nat} {n : SNode}
    (h : nodes.get? i = some n) : nodeAt nodes i = n := by
  rw [nodeAt, h]; rfl

theorem mem_mkLinks {nodes : List SNode} {data : List CSVRecord} {l : SLink} :
    ∀ {hs : List String},
      l ∈ mkLinks nodes data hs ↔
        ∃ i sH tH, hs.get? i = some sH ∧ hs.get? (i + 1) = some tH ∧
          l ∈ mkLinksForDim nodes data sH tH := by
  intro hs
  match hs with
  | [] => simp [mkLinks]
  | [h] =>
    simp only [mkLinks, List.not_mem_nil, false_iff]
    rintro ⟨i, sH, tH, hi, hi1, -⟩
    match i with
    | 0 => cases hi1
    | i + 1 => cases hi
  | h1 :: h2 :: rest =>
    rw [mkLinks, List.mem_append, @mem_mkLinks nodes data l (h2 :: rest)]
    constructor
    · rintro (hl | ⟨i, sH, tH, hi, hi1, hl⟩)
      · exact ⟨0, h1, h2, rfl, rfl, hl⟩
      · exact ⟨i + 1, sH, tH, by simpa using hi, by simpa using hi1, hl⟩
    · rintro ⟨i, sH, tH, hi, hi1, hl⟩
      match i with
      | 0 =>
        left
        have e1 : h1 = sH := by simpa using hi
        have e2 : h2 = tH := by simpa using hi1
        rw [e1, e2]
        exact hl
      | i + 1 =>
        right
        exact ⟨i, sH, tH, by simpa using hi, by simpa using hi1, hl⟩

/-- Shape of every link of one clean adjacent-dimension pass: its endpoints
are the canonical nodes of dimensions `d` and `d + 1` for its value pair,
and its weight and retained records are exactly the records carrying that
value pair. -/
theorem clean_link_shape {hs : List String} {data : List CSVRecord}
    (hcl : CleanData hs data) {d : Nat} {sH tH : String}
    (hsd : hs.get? d = some sH) (htd : hs.get? (d + 1) = some tH)
    {l : SLink} (hl : l ∈ mkLinksForDim (mkNodes data hs) data sH tH) :
    ∃ v w,
      (mkNodes data hs).get? l.source = some
        ⟨nodeId sH (some v), v, sH, some v, d,
          sumCounts (data.filter (fun r => r.get? sH = some v))⟩ ∧
      (mkNodes data hs).get? l.target = some
        ⟨nodeId tH (some w), w, tH, some w, d + 1,
          sumCounts (data.filter (fun r => r.get? tH = some w))⟩ ∧
      l.value = sumCounts (data.filter
        (fun r => (r.get? sH, r.get? tH) = (some v, some w))) ∧
      l.records = data.filter
        (fun r => (r.get? sH, r.get? tH) = (some v, some w)) ∧
      l.sourceNode = nodeId sH (some v) ∧ l.targetNode = nodeId tH (some w) := by
  rw [mkLinksForDim_clean hcl hsd htd] at hl
  obtain ⟨vv, hvv, rfl⟩ := List.mem_map.mp hl
  have hsmem : sH ∈ hs := List.get?_mem hsd
  have htmem : tH ∈ hs := List.get?_mem htd
  obtain ⟨r, hr, hpair⟩ := List.mem_map.mp (mem_uniqueFirst.mp hvv)
  have h1 : valOk vv.1 := by rw [← hpair]; exact hcl.2.2 r hr sH hsmem
  have h2 : valOk vv.2 := by rw [← hpair]; exact hcl.2.2 r hr tH htmem
  have hv1mem : vv.1 ∈ uniqueFirst (data.map (fun r => r.get? sH)) := by
    rw [mem_uniqueFirst, ← hpair]
    exact List.mem_map_of_mem _ hr
  have hv2mem : vv.2 ∈ uniqueFirst (data.map (fun r => r.get? tH)) := by
    rw [mem_uniqueFirst, ← hpair]
    exact List.mem_map_of_mem _ hr
  obtain ⟨jS, hlS, hgS⟩ := clean_lastIdxOf hcl hsd hv1mem
  obtain ⟨jT, hlT, hgT⟩ := clean_lastIdxOf hcl htd hv2mem
  obtain ⟨x, y⟩ := vv
  obtain ⟨v, hev, -⟩ := valOk_iff.mp h1
  obtain ⟨w, hew, -⟩ := valOk_iff.mp h2
  simp only at hev hew
  subst hev
  subst hew
  refine ⟨v, w, ?_, ?_, rfl, rfl, rfl, rfl⟩
  · show (mkNodes data hs).get?
      ((lastIdxOf (nodeId sH (some v)) (mkNodes data hs)).getD 0) = _
    rw [hlS, Option.getD_some, hgS]
    rfl
  · show (mkNodes data hs).get?
      ((lastIdxOf (nodeId tH (some w)) (mkNodes data hs)).getD 0) = _
    rw [hlT, Option.getD_some, hgT]
    rfl

theorem sumCounts_def (l : List CSVRecord) :
    sumCounts l = (l.map CSVRecord.count).sum := rfl

/-- Facts about the node sitting at an index, in canonical form. -/
theorem node_at_shape {hs : List String} {data : List CSVRecord} {i0 : Nat}
    {n : SNode} (hget : (mkNodes data hs).get? i0 = some n) :
    ∃ hh, hs.get? n.dimIndex = some hh ∧ n.header = hh ∧
      n.value ∈ uniqueFirst (data.map (fun r => r.get? hh)) ∧
      n.id = nodeId hh n.value ∧
      n.totalValue = sumCounts (data.filter (fun r => r.get? hh = n.value)) := by
  have hmem : n ∈ mkNodes data hs := List.get?_mem hget
  obtain ⟨hh, h1, h2, h3, h4, h5, h6⟩ := node_shape hmem
  exact ⟨hh, h1, h2, h3, h4, h6⟩

/-- The source-filter of one clean pass at the node's own dimension sums to
the node's total weight. -/
theorem pass_source_sum {hs : List String} {data : List CSVRecord}
    (hcl : CleanData hs data) {d : Nat} {sH tH : String}
    (hsd : hs.get? d = some sH) (htd : hs.get? (d + 1) = some tH)
    {i0 : Nat} {n : SNode} (hget : (mkNodes data hs).get? i0 = some n)
    (hdim : n.dimIndex = d) :
    ((((mkLinksForDim (mkNodes data hs) data sH tH).filter
        (fun l => l.source = i0)).map SLink.value)).sum = n.totalValue := by
  obtain ⟨hh, hhd, hhead, hvmem, hid, htot⟩ := node_at_shape hget
  rw [hdim] at hhd
  rw [hsd] at hhd
  cases hhd
  rw [mkLinksForDim_clean hcl hsd htd, List.filter_map, List.map_map]
  have hcongr : (uniqueFirst (data.map (fun r => (r.get? sH, r.get? tH)))).filter
        ((fun l => decide (l.source = i0)) ∘ canonLink (mkNodes data hs) data sH tH)
      = (uniqueFirst (data.map (fun r => (r.get? sH, r.get? tH)))).filter
        (fun vv => decide (vv.1 = n.value)) := by
    apply List.filter_congr
    intro vv hvv
    have hv1mem : vv.1 ∈ uniqueFirst (data.map (fun r => r.get? sH)) := by
      obtain ⟨r, hr, hpair⟩ := List.mem_map.mp (mem_uniqueFirst.mp hvv)
      rw [mem_uniqueFirst, ← hpair]
      exact List.mem_map_of_mem _ hr
    obtain ⟨jS, hlS, hgS⟩ := clean_lastIdxOf hcl hsd hv1mem
    simp only [Function.comp_apply, decide_eq_decide]
    constructor
    · intro hsrc
      have : (canonLink (mkNodes data hs) data sH tH vv).source = jS := by
        rw [canonLink, hlS]; rfl
      rw [this] at hsrc
      subst hsrc
      rw [hget] at hgS
      cases hgS
      rfl
    · intro hv
      have hidx : lastIdxOf (nodeId sH vv.1) (mkNodes data hs) = some i0 := by
        rw [hv, ← hid]
        exact lastIdxOf_of_get? (mkNodes_ids_nodup hcl) hget
      rw [canonLink, hidx]
      rfl
  rw [hcongr]
  have hfun : SLink.value ∘ canonLink (mkNodes data hs) data sH tH
      = fun vv => sumCounts (data.filter
          (fun r => (r.get? sH, r.get? tH) = vv)) := rfl
  rw [hfun, htot]
  exact sum_partition (fun r : CSVRecord => (r.get? sH, r.get? tH))
    CSVRecord.count (fun vv => decide (vv.1 = n.value)) data

/-- A clean pass at a dimension other than the node's own has no outgoing
links from that node. -/
theorem pass_source_empty {hs : List String} {data : List CSVRecord}
    (hcl : CleanData hs data) {d : Nat} {sH tH : String}
    (hsd : hs.get? d = some sH) (htd : hs.get? (d + 1) = some tH)
    {i0 : Nat} {n : SNode} (hget : (mkNodes data hs).get? i0 = some n)
    (hdim : n.dimIndex ≠ d) :
    (mkLinksForDim (mkNodes data hs) data sH tH).filter
        (fun l => l.source = i0) = [] := by
  rw [List.filter_eq_nil_iff]
  intro l hl
  simp only [decide_eq_true_eq]
  intro hsrc
  obtain ⟨v, w, hS, hT, -⟩ := clean_link_shape hcl hsd htd hl
  rw [hsrc, hget] at hS
  cases hS
  exact hdim rfl

/-- The target-filter of one clean pass ending at the node's own dimension
sums to the node's total weight. -/
theorem pass_target_sum {hs : List String} {data : List CSVRecord}
    (hcl : CleanData hs data) {d : Nat} {sH tH : String}
    (hsd : hs.get? d = some sH) (htd : hs.get? (d + 1) = some tH)
    {i0 : Nat} {n : SNode} (hget : (mkNodes data hs).get? i0 = some n)
    (hdim : n.dimIndex = d + 1) :
    ((((mkLinksForDim (mkNodes data hs) data sH tH).filter
        (fun l => l.target = i0)).map SLink.value)).sum = n.totalValue := by
  obtain ⟨hh, hhd, hhead, hvmem, hid, htot⟩ := node_at_shape hget
  rw [hdim] at hhd
  rw [htd] at hhd
  cases hhd
  rw [mkLinksForDim_clean hcl hsd htd, List.filter_map, List.map_map]
  have hcongr : (uniqueFirst (data.map (fun r => (r.get? sH, r.get? tH)))).filter
        ((fun l => decide (l.target = i0)) ∘ canonLink (mkNodes data hs) data sH tH)
      = (uniqueFirst (data.map (fun r => (r.get? sH, r.get? tH)))).filter
        (fun vv => decide (vv.2 = n.value)) := by
    apply List.filter_congr
    intro vv hvv
    have hv2mem : vv.2 ∈ uniqueFirst (data.map (fun r => r.get? tH)) := by
      obtain ⟨r, hr, hpair⟩ := List.mem_map.mp (mem_uniqueFirst.mp hvv)
      rw [mem_uniqueFirst, ← hpair]
      exact List.mem_map_of_mem _ hr
    obtain ⟨jT, hlT, hgT⟩ := clean_lastIdxOf hcl htd hv2mem
    simp only [Function.comp_apply, decide_eq_decide]
    constructor
    · intro htgt
      have : (canonLink (mkNodes data hs) data sH tH vv).target = jT := by
        rw [canonLink, hlT]; rfl
      rw [this] at htgt
      subst htgt
      rw [hget] at hgT
      cases hgT
      rfl
    · intro hv
      have hidx : lastIdxOf (nodeId tH vv.2) (mkNodes data hs) = some i0 := by
        rw [hv, ← hid]
        exact lastIdxOf_of_get? (mkNodes_ids_nodup hcl) hget
      rw [canonLink, hidx]
      rfl
  rw [hcongr]
  have hfun : SLink.value ∘ canonLink (mkNodes data hs) data sH tH
      = fun vv => sumCounts (data.filter
          (fun r => (r.get? sH, r.get? tH) = vv)) := rfl
  rw [hfun, htot]
  exact sum_partition (fun r : CSVRecord => (r.get? sH, r.get? tH))
    CSVRecord.count (fun vv => decide (vv.2 = n.value)) data

/-- A clean pass ending at a dimension other than the node's own has no
incoming links into that node. -/
theorem pass_target_empty {hs : List String} {data : List CSVRecord}
    (hcl : CleanData hs data) {d : Nat} {sH tH : String}
    (hsd : hs.get? d = some sH) (htd : hs.get? (d + 1) = some tH)
    {i0 : Nat} {n : SNode} (hget : (mkNodes data hs).get? i0 = some n)
    (hdim : n.dimIndex ≠ d + 1) :
    (mkLinksForDim (mkNodes data hs) data sH tH).filter
        (fun l => l.target = i0) = [] := by
  rw [List.filter_eq_nil_iff]
  intro l hl
  simp only [decide_eq_true_eq]
  intro htgt
  obtain ⟨v, w, hS, hT, -⟩ := clean_link_shape hcl hsd htd hl
  rw [htgt, hget] at hT
  cases hT
  exact hdim rfl

/-- Summing the outgoing-link weights of a node over the passes of a header
suffix: the node's own pass contributes its total weight, all others
nothing. -/
theorem mkLinks_source_sum_aux {hs : List String} {data : List CSVRecord}
    (hcl : CleanData hs data) {i0 : Nat} {n : SNode}
    (hget : (mkNodes data hs).get? i0 = some n) :
    ∀ (suffix : List String) (d : Nat), hs.drop d = suffix →
      (((mkLinks (mkNodes data hs) data suffix).filter
          (fun l => l.source = i0)).map SLink.value).sum
        = if d ≤ n.dimIndex ∧ n.dimIndex + 1 < hs.length
          then n.totalValue else 0 := by
  intro suffix
  induction suffix with
  | nil =>
    intro d hdrop
    have hlen : hs.length - d = 0 := by
      rw [← List.length_drop, hdrop]; rfl
    rw [if_neg (by rintro ⟨c1, c2⟩; omega)]
    simp [mkLinks]
  | cons h1 tail ih =>
    intro d hdrop
    match tail with
    | [] =>
      have hlen : hs.length - d = 1 := by
        rw [← List.length_drop, hdrop]; rfl
      rw [if_neg (by rintro ⟨c1, c2⟩; omega)]
      simp [mkLinks]
    | h2 :: rest =>
      have hh1 : hs.get? d = some h1 := by
        have := List.get?_drop hs d 0
        rw [hdrop] at this
        simpa using this.symm
      have hh2 : hs.get? (d + 1) = some h2 := by
        have := List.get?_drop hs d 1
        rw [hdrop] at this
        simpa using this.symm
      have hdrop' : hs.drop (d + 1) = h2 :: rest := by
        rw [← List.tail_drop, hdrop]
        rfl
      obtain ⟨hb2, -⟩ := List.get?_eq_some.mp hh2
      rw [show mkLinks (mkNodes data hs) data (h1 :: h2 :: rest)
          = mkLinksForDim (mkNodes data hs) data h1 h2
            ++ mkLinks (mkNodes data hs) data (h2 :: rest) from rfl]
      rw [List.filter_append, List.map_append, List.sum_append,
        ih (d + 1) hdrop']
      by_cases hdim : n.dimIndex = d
      · rw [pass_source_sum hcl hh1 hh2 hget hdim,
          if_neg (by rintro ⟨c1, c2⟩; omega),
          if_pos ⟨by omega, by omega⟩, add_zero]
      · rw [pass_source_empty hcl hh1 hh2 hget hdim]
        simp only [List.map_nil, List.sum_nil, zero_add]
        by_cases hc : d + 1 ≤ n.dimIndex ∧ n.dimIndex + 1 < hs.length
        · rw [if_pos hc, if_pos ⟨by omega, hc.2⟩]
        · rw [if_neg hc, if_neg (by rintro ⟨c1, c2⟩; exact hc ⟨by omega, c2⟩)]

/-- **Aggregation-side flow conservation, outgoing.**  For a clean dataset,
the weights of a non-terminal node's outgoing links sum to its total
weight. -/
theorem mkLinks_source_total {hs : List String} {data : List CSVRecord}
    (hcl : CleanData hs data) {i0 : Nat} {n : SNode}
    (hget : (mkNodes data hs).get? i0 = some n)
    (hterm : n.dimIndex + 1 < hs.length) :
    (((mkLinks (mkNodes data hs) data hs).filter
        (fun l => l.source = i0)).map SLink.value).sum = n.totalValue := by
  have := mkLinks_source_sum_aux hcl hget hs 0 (List.drop_zero hs)
  rwa [if_pos ⟨Nat.zero_le _, hterm⟩] at this

theorem mkLinks_target_sum_aux {hs : List String} {data : List CSVRecord}
    (hcl : CleanData hs data) {i0 : Nat} {n : SNode}
    (hget : (mkNodes data hs).get? i0 = some n) :
    ∀ (suffix : List String) (d : Nat), hs.drop d = suffix →
      (((mkLinks (mkNodes data hs) data suffix).filter
          (fun l => l.target = i0)).map SLink.value).sum
        = if d + 1 ≤ n.dimIndex ∧ n.dimIndex < hs.length
          then n.totalValue else 0 := by
  intro suffix
  induction suffix with
  | nil =>
    intro d hdrop
    have hlen : hs.length - d = 0 := by
      rw [← List.length_drop, hdrop]; rfl
    rw [if_neg (by rintro ⟨c1, c2⟩; omega)]
    simp [mkLinks]
  | cons h1 tail ih =>
    intro d hdrop
    match tail with
    | [] =>
      have hlen : hs.length - d = 1 := by
        rw [← List.length_drop, hdrop]; rfl
      rw [if_neg (by rintro ⟨c1, c2⟩; omega)]
      simp [mkLinks]
    | h2 :: rest =>
      have hh1 : hs.get? d = some h1 := by
        have := List.get?_drop hs d 0
        rw [hdrop] at this
        simpa using this.symm
      have hh2 : hs.get? (d + 1) = some h2 := by
        have := List.get?_drop hs d 1
        rw [hdrop] at this
        simpa using this.symm
      have hdrop' : hs.drop (d + 1) = h2 :: rest := by
        rw [← List.tail_drop, hdrop]
        rfl
      obtain ⟨hb2, -⟩ := List.get?_eq_some.mp hh2
      rw [show mkLinks (mkNodes data hs) data (h1 :: h2 :: rest)
          = mkLinksForDim (mkNodes data hs) data h1 h2
            ++ mkLinks (mkNodes data hs) data (h2 :: rest) from rfl]
      rw [List.filter_append, List.map_append, List.sum_append,
        ih (d + 1) hdrop']
      by_cases hdim : n.dimIndex = d + 1
      · rw [pass_target_sum hcl hh1 hh2 hget hdim,
          if_neg (by rintro ⟨c1, c2⟩; omega),
          if_pos ⟨by omega, by omega⟩, add_zero]
      · rw [pass_target_empty hcl hh1 hh2 hget hdim]
        simp only [List.map_nil, List.sum_nil, zero_add]
        by_cases hc : d + 2 ≤ n.dimIndex ∧ n.dimIndex < hs.length
        · rw [if_pos hc, if_pos ⟨by omega, hc.2⟩]
        · rw [if_neg hc, if_neg (by rintro ⟨c1, c2⟩; exact hc ⟨by omega, c2⟩)]

/-- **Aggregation-side flow conservation, incoming.**  For a clean dataset,
the weights of a non-initial node's incoming links sum to its total
weight. -/
theorem mkLinks_target_total {hs : List String} {data : List CSVRecord}
    (hcl : CleanData hs data) {i0 : Nat} {n : SNode}
    (hget : (mkNodes data hs).get? i0 = some n)
    (hinit : 0 < n.dimIndex) :
    (((mkLinks (mkNodes data hs) data hs).filter
        (fun l => l.target = i0)).map SLink.value).sum = n.totalValue := by
  obtain ⟨hh, hhd, -⟩ := node_at_shape hget
  obtain ⟨hb, -⟩ := List.get?_eq_some.mp hhd
  have := mkLinks_target_sum_aux hcl hget hs 0 (List.drop_zero hs)
  rwa [if_pos ⟨by omega, hb⟩] at this

/-! ## Layout engine (`calculatePositions`, src/app.ts lines 301–439)

JS number arithmetic on `Option ℚ`: `none` models a non-finite value
(`NaN`/`±Infinity`), produced here only by division by zero, and poisons
every later operation, as NaN does. -/

abbrev JsNum := Option ℚ

def jadd : JsNum → JsNum → JsNum
  | some a, some b => some (a + b)
  | _, _ => none

def jmul : JsNum → JsNum → JsNum
  | some a, some b => some (a * b)
  | _, _ => none

def jdiv : JsNum → JsNum → JsNum
  | some a, some b => if b = 0 then none else some (a / b)
  | _, _ => none

/-- Left-fold sum of JS numbers. -/
def jsum (l : List JsNum) : JsNum := l.foldl jadd (some 0)

theorem jadd_some (a b : ℚ) : jadd (some a) (some b) = some (a + b) := rfl

theorem jsum_map_some {α : Type} (f : α → ℚ) (l : List α) :
    jsum (l.map (fun x => some (f x))) = some ((l.map f).sum) := by
  have key : ∀ (l : List α) (a : ℚ),
      (l.map (fun x => some (f x))).foldl jadd (some a)
        = some (a + (l.map f).sum) := by
    intro l
    induction l with
    | nil => intro a; simp
    | cons x xs ih =>
      intro a
      simp only [List.map_cons, List.foldl_cons, jadd_some, ih, List.sum_cons]
      rw [add_assoc]
  rw [jsum, key, zero_add]

/-- `NodePosition`: x, y, height. -/
structure NodePos where
  x : ℚ
  y : JsNum
  height : JsNum
  deriving DecidableEq, Repr

instance : Inhabited NodePos := ⟨⟨0, none, none⟩⟩

/-- `nodesByDim`: node indices grouped by `dimIndex`, built with the same
JS-`Map` push pattern as in the source. -/
def nodesByDim (nodes : List SNode) : List (Nat × List Nat) :=
  groupFold (fun p : Nat × SNode => p.2.dimIndex) ([] : List Nat)
    (fun acc p => acc ++ [p.1]) nodes.enum

/-- The per-column placement loop: `height = (totalValue / totalDimValue) *
availableHeight`, `currentY += height + nodePadding` (`nodePadding = 10`). -/
def positionColumn (nodes : List SNode) (x total avail : ℚ) :
    List Nat → JsNum → List (Nat × NodePos)
  | [], _ => []
  | i :: rest, curY =>
    let h := jmul (jdiv (some (nodeAt nodes i).totalValue) (some total))
      (some avail)
    (i, ⟨x, curY, h⟩) ::
      positionColumn nodes x total avail rest (jadd curY (jadd h (some 10)))

/-- The node-position half of `calculatePositions`. -/
def calcNodePositions (nodes : List SNode) (chartW chartH : ℚ)
    (ndims : Nat) : List (Nat × NodePos) :=
  let columnWidth := chartW / (max 1 (ndims - 1) : ℚ)
  (nodesByDim nodes).flatMap (fun dimGroup =>
    let x := (dimGroup.1 : ℚ) * columnWidth
    let total := (dimGroup.2.map (fun i => (nodeAt nodes i).totalValue)).sum
    let avail := chartH - ((dimGroup.2.length : ℚ) - 1) * 10
    positionColumn nodes x total avail dimGroup.2 (some 0))

/-- `nodePositions.get(i)`. -/
def posLookup (ps : List (Nat × NodePos)) (i : Nat) : Option NodePos :=
  (ps.find? (fun p => p.1 = i)).map Prod.snd

/-- `nodePositions.get(i)!` (lookup always succeeds where the source uses
it; proved where needed). -/
def posAt (ps : List (Nat × NodePos)) (i : Nat) : NodePos :=
  (posLookup ps i).getD default

/-- Source-side link height: `(link.value / sourceNode.totalValue) *
sourcePos.height` (src/app.ts lines 363–369). -/
def linkSourceHeight (nodes : List SNode) (npos : List (Nat × NodePos))
    (l : SLink) : JsNum :=
  jmul (jdiv (some l.value) (some (nodeAt nodes l.source).totalValue))
    (posAt npos l.source).height

/-- Target-side link height: `(link.value / targetNode.totalValue) *
targetPos.height` (src/app.ts lines 371–377). -/
def linkTargetHeight (nodes : List SNode) (npos : List (Nat × NodePos))
    (l : SLink) : JsNum :=
  jmul (jdiv (some l.value) (some (nodeAt nodes l.target).totalValue))
    (posAt npos l.target).height

/-! ### Characterising the computed node positions -/

/-- The indices of the nodes of dimension `d`, in node order. -/
def colIdxs (nodes : List SNode) (d : Nat) : List Nat :=
  (nodes.enum.filter (fun p => p.2.dimIndex = d)).map Prod.fst

/-- The column total the layout divides by. -/
def colTotal (nodes : List SNode) (d : Nat) : ℚ :=
  ((colIdxs nodes d).map (fun i => (nodeAt nodes i).totalValue)).sum

/-- The number of nodes in column `d`. -/
def colCount (nodes : List SNode) (d : Nat) : Nat := (colIdxs nodes d).length

/-- The height `calculatePositions` assigns to node `i` of column `d`. -/
def colHeight (nodes : List SNode) (chartH : ℚ) (d i : Nat) : JsNum :=
  jmul (jdiv (some (nodeAt nodes i).totalValue) (some (colTotal nodes d)))
    (some (chartH - ((colCount nodes d : ℚ) - 1) * 10))

theorem foldl_push_idx {γ : Type} (g : List (Nat × γ)) :
    ∀ acc : List Nat, g.foldl (fun acc p => acc ++ [p.1]) acc
      = acc ++ g.map Prod.fst := by
  induction g with
  | nil => simp
  | cons p g ih => intro acc; rw [List.foldl_cons, ih]; simp

theorem nodesByDim_eq (nodes : List SNode) :
    nodesByDim nodes
      = (uniqueFirst (nodes.enum.map (fun p => p.2.dimIndex))).map
          (fun d => (d, colIdxs nodes d)) := by
  rw [nodesByDim, groupFold_eq, groupSpec]
  apply List.map_congr_left
  intro d _
  rw [foldl_push_idx]
  simp [colIdxs]

theorem positionColumn_keys (nodes : List SNode) (x t a : ℚ) :
    ∀ (idxs : List Nat) (curY : JsNum),
      (positionColumn nodes x t a idxs curY).map Prod.fst = idxs := by
  intro idxs
  induction idxs with
  | nil => intro _; rfl
  | cons i rest ih => intro curY; rw [positionColumn]; simp [ih]

theorem positionColumn_mem (nodes : List SNode) (x t a : ℚ) :
    ∀ (idxs : List Nat) (curY : JsNum) (i : Nat), i ∈ idxs →
      ∃ y, (i, (⟨x, y, jmul (jdiv (some (nodeAt nodes i).totalValue)
        (some t)) (some a)⟩ : NodePos)) ∈ positionColumn nodes x t a idxs curY := by
  intro idxs
  induction idxs with
  | nil => intro _ i h; cases h
  | cons j rest ih =>
    intro curY i hmem
    rcases List.mem_cons.mp hmem with rfl | hmem
    · exact ⟨curY, List.mem_cons_self _ _⟩
    · obtain ⟨y, hy⟩ := ih _ i hmem
      exact ⟨y, List.mem_cons_of_mem _ hy⟩

theorem mem_colIdxs {nodes : List SNode} {d i : Nat} :
    i ∈ colIdxs nodes d ↔ ∃ n, nodes.get? i = some n ∧ n.dimIndex = d := by
  rw [colIdxs]
  constructor
  · intro h
    obtain ⟨⟨i', m⟩, hp, he⟩ := List.mem_map.mp h
    cases he
    have hpm := List.mem_filter.mp hp
    refine ⟨m, List.mem_enum_iff_get?.mp hpm.1, by simpa using hpm.2⟩
  · rintro ⟨n, hget, hdim⟩
    refine List.mem_map.mpr ⟨(i, n), List.mem_filter.mpr ⟨?_, by simpa⟩, rfl⟩
    exact List.mem_enum_iff_get?.mpr (by simpa using hget)

/-- The position `calculatePositions` computes for node `i`: its column's
x, some running y, and the proportional height. -/
theorem posLookup_calc {nodes : List SNode} {i : Nat} {n : SNode}
    (hget : nodes.get? i = some n) (chartW chartH : ℚ) (ndims : Nat) :
    ∃ y, posLookup (calcNodePositions nodes chartW chartH ndims) i
      = some ⟨(n.dimIndex : ℚ) * (chartW / (max 1 (ndims - 1) : ℚ)), y,
          colHeight nodes chartH n.dimIndex i⟩ := by
  have hd_mem : n.dimIndex ∈ uniqueFirst (nodes.enum.map (fun p => p.2.dimIndex)) := by
    rw [mem_uniqueFirst, List.mem_map]
    exact ⟨(i, n), List.mem_enum_iff_get?.mpr (by simpa using hget), rfl⟩
  have hcol_mem : i ∈ colIdxs nodes n.dimIndex :=
    mem_colIdxs.mpr ⟨n, hget, rfl⟩
  -- the entry exists
  obtain ⟨y, hy⟩ := positionColumn_mem nodes
    ((n.dimIndex : ℚ) * (chartW / (max 1 (ndims - 1) : ℚ)))
    (((colIdxs nodes n.dimIndex).map (fun j => (nodeAt nodes j).totalValue)).sum)
    (chartH - (((colIdxs nodes n.dimIndex).length : ℚ) - 1) * 10)
    (colIdxs nodes n.dimIndex) (some 0) i hcol_mem
  refine ⟨y, ?_⟩
  rw [posLookup]
  -- walk the per-dimension groups: groups of other dimensions cannot
  -- contain index `i`, the group of `n.dimIndex` contains the entry
  have hother : ∀ d', d' ≠ n.dimIndex →
      (positionColumn nodes ((d' : ℚ) * (chartW / (max 1 (ndims - 1) : ℚ)))
        (((colIdxs nodes d').map (fun j => (nodeAt nodes j).totalValue)).sum)
        (chartH - (((colIdxs nodes d').length : ℚ) - 1) * 10)
        (colIdxs nodes d') (some 0)).find? (fun p => p.1 = i) = none := by
    intro d' hne
    rw [List.find?_eq_none]
    intro p hp
    simp only [decide_eq_true_eq]
    intro he
    have : p.1 ∈ colIdxs nodes d' := by
      rw [← positionColumn_keys nodes _ _ _ (colIdxs nodes d') (some 0)]
      exact List.mem_map_of_mem Prod.fst hp
    rw [he] at this
    obtain ⟨m, hm, hmd⟩ := mem_colIdxs.mp this
    rw [hget] at hm
    cases hm
    exact hne hmd.symm
  have hfound : (positionColumn nodes
        ((n.dimIndex : ℚ) * (chartW / (max 1 (ndims - 1) : ℚ)))
        (((colIdxs nodes n.dimIndex).map (fun j => (nodeAt nodes j).totalValue)).sum)
        (chartH - (((colIdxs nodes n.dimIndex).length : ℚ) - 1) * 10)
        (colIdxs nodes n.dimIndex) (some 0)).find? (fun p => p.1 = i)
      = some (i, ⟨(n.dimIndex : ℚ) * (chartW / (max 1 (ndims - 1) : ℚ)), y,
          colHeight nodes chartH n.dimIndex i⟩) := by
    have hkeys : ((positionColumn nodes
        ((n.dimIndex : ℚ) * (chartW / (max 1 (ndims - 1) : ℚ)))
        (((colIdxs nodes n.dimIndex).map (fun j => (nodeAt nodes j).totalValue)).sum)
        (chartH - (((colIdxs nodes n.dimIndex).length : ℚ) - 1) * 10)
        (colIdxs nodes n.dimIndex) (some 0)).map Prod.fst).Nodup := by
      rw [positionColumn_keys]
      have : (nodes.enum.map Prod.fst).Nodup := by
        rw [List.enum_map_fst]
        exact List.nodup_range _
      exact this.sublist ((List.filter_sublist _).map Prod.fst)
    -- `find?` on a nodup-keyed association list returns the member entry
    revert hy hkeys
    generalize positionColumn nodes _ _ _ (colIdxs nodes n.dimIndex) (some 0) = ps
    intro hy hkeys
    induction ps with
    | nil => cases hy
    | cons q ps ih =>
      rw [List.map_cons, List.nodup_cons] at hkeys
      rcases List.mem_cons.mp hy with rfl | hy'
      · rw [List.find?_cons_of_pos _ (by simp)]
        rfl
      · have hq : ¬ (q.1 = i) := by
          intro he
          refine hkeys.1 ?_
          rw [he]
          have := List.mem_map_of_mem Prod.fst hy'
          exact this
        rw [List.find?_cons_of_neg _ (by simpa using hq)]
        exact ih hy' hkeys.2
  -- combine: fold over the group list
  rw [calcNodePositions, nodesByDim_eq]
  rw [show (fun dimGroup : Nat × List Nat =>
      positionColumn nodes ((dimGroup.1 : ℚ) * (chartW / (max 1 (ndims - 1) : ℚ)))
        ((dimGroup.2.map (fun i => (nodeAt nodes i).totalValue)).sum)
        (chartH - ((dimGroup.2.length : ℚ) - 1) * 10) dimGroup.2 (some 0))
      = (fun dimGroup : Nat × List Nat =>
      positionColumn nodes ((dimGroup.1 : ℚ) * (chartW / (max 1 (ndims - 1) : ℚ)))
        ((dimGroup.2.map (fun i => (nodeAt nodes i).totalValue)).sum)
        (chartH - ((dimGroup.2.length : ℚ) - 1) * 10) dimGroup.2 (some 0)) from rfl]
  revert hd_mem
  generalize uniqueFirst (nodes.enum.map (fun p => p.2.dimIndex)) = ds
  intro hd_mem
  induction ds with
  | nil => cases hd_mem
  | cons d' ds ih =>
    rw [List.map_cons, List.flatMap_cons, List.find?_append]
    rcases List.mem_cons.mp hd_mem with rfl | hd'
    · rw [hfound]
      rfl
    · by_cases hne : d' = n.dimIndex
      · subst hne
        rw [hfound]
        rfl
      · rw [hother d' hne]
        exact ih hd'

theorem colIdxs_map_nodeAt {nodes : List SNode} {d : Nat} :
    (colIdxs nodes d).map (fun i => (nodeAt nodes i).totalValue)
      = (nodes.filter (fun m => m.dimIndex = d)).map SNode.totalValue := by
  rw [colIdxs, List.map_map]
  have h1 : (nodes.enum.filter (fun p => p.2.dimIndex = d)).map
        ((fun i => (nodeAt nodes i).totalValue) ∘ Prod.fst)
      = (nodes.enum.filter (fun p => p.2.dimIndex = d)).map
        (fun p => p.2.totalValue) := by
    apply List.map_congr_left
    intro p hp
    have hmem := (List.mem_filter.mp hp).1
    have hget := List.mem_enum_iff_get?.mp hmem
    simp only [Function.comp_apply]
    rw [nodeAt_of_get? hget]
  rw [h1]
  have h2 : (nodes.enum.filter (fun p => p.2.dimIndex = d)).map
        (fun p : Nat × SNode => p.2.totalValue)
      = ((nodes.enum.filter (fun p => p.2.dimIndex = d)).map Prod.snd).map
        SNode.totalValue := by
    rw [List.map_map]; rfl
  rw [h2]
  have h3 : (nodes.enum.filter (fun p => p.2.dimIndex = d)).map Prod.snd
      = nodes.filter (fun m => m.dimIndex = d) := by
    have := @List.filter_map (Nat × SNode) SNode
      (fun m : SNode => decide (m.dimIndex = d))
      (Prod.snd : Nat × SNode → SNode) nodes.enum
    rw [List.enum_map_snd] at this
    have hpred : ((fun m : SNode => decide (m.dimIndex = d)) ∘ Prod.snd)
        = (fun p : Nat × SNode => decide (p.2.dimIndex = d)) := rfl
    rw [hpred] at this
    exact this.symm
  rw [h3]

theorem colIdxs_length {nodes : List SNode} {d : Nat} :
    (colIdxs nodes d).length = (nodes.filter (fun m => m.dimIndex = d)).length := by
  have := congrArg List.length (@colIdxs_map_nodeAt nodes d)
  simpa using this

theorem mkNodesAux_filter_dim (data : List CSVRecord) :
    ∀ (i : Nat) (hs : List String) (j : Nat) (hh : String),
      hs.get? j = some hh →
      (mkNodesAux data i hs).filter (fun m => m.dimIndex = i + j)
        = dimNodes data (i + j) hh := by
  intro i hs
  induction hs generalizing i with
  | nil => intro j hh h; cases h
  | cons h rest ih =>
    intro j hh hj
    rw [mkNodesAux, List.filter_append]
    match j with
    | 0 =>
      have he : h = hh := by simpa using hj
      subst he
      have hblock : (dimNodes data i h).filter
          (fun m => m.dimIndex = i + 0) = dimNodes data i h := by
        rw [List.filter_eq_self]
        intro m hm
        simp [dimIndex_of_mem_dimNodes hm]
      have hrest : (mkNodesAux data (i + 1) rest).filter
          (fun m => m.dimIndex = i + 0) = [] := by
        rw [List.filter_eq_nil_iff]
        intro m hm
        have := mkNodesAux_dim_ge hm
        simp only [decide_eq_true_eq]
        omega
      rw [hblock, hrest, List.append_nil]
      rw [Nat.add_zero]
    | j + 1 =>
      have hblock : (dimNodes data i h).filter
          (fun m => m.dimIndex = i + (j + 1)) = [] := by
        rw [List.filter_eq_nil_iff]
        intro m hm
        rw [dimIndex_of_mem_dimNodes hm]
        simp only [decide_eq_true_eq]
        omega
      have := ih (i + 1) j hh (by simpa using hj)
      rw [hblock, List.nil_append,
        show i + (j + 1) = i + 1 + j by omega, this]

/-- The layout's per-column total is the whole dataset's total weight:
every record contributes exactly once to every (existing) column. -/
theorem colTotal_mkNodes {data : List CSVRecord} {hs : List String}
    {d : Nat} {hh : String} (hd : hs.get? d = some hh) :
    colTotal (mkNodes data hs) d = sumCounts data := by
  rw [colTotal, colIdxs_map_nodeAt]
  rw [show (mkNodes data hs).filter (fun m => m.dimIndex = d)
      = dimNodes data d hh from by
    have := mkNodesAux_filter_dim data 0 hs d hh hd
    simpa [mkNodes] using this]
  rw [dimNodes, List.map_map]
  have hfun : (SNode.totalValue ∘ fun v =>
      (⟨nodeId hh v, optStr v, hh, v, d,
        sumCounts (data.filter (fun r => r.get? hh = v))⟩ : SNode))
      = fun v => sumCounts (data.filter (fun r => r.get? hh = v)) := rfl
  rw [hfun]
  have hsp := sum_partition (fun r : CSVRecord => r.get? hh)
    CSVRecord.count (fun _ => true) data
  rw [List.filter_true] at hsp
  have : data.filter (fun a => true) = data := List.filter_true data
  rw [this] at hsp
  exact hsp

theorem prepareSankeyData_nodes (data : List CSVRecord) (dims : List String) :
    (prepareSankeyData data dims).nodes = mkNodes data dims := rfl

theorem prepareSankeyData_links (data : List CSVRecord) (dims : List String) :
    (prepareSankeyData data dims).links = mkLinks (mkNodes data dims) data dims := rfl

theorem sumCounts_pos {l : List CSVRecord} (hpos : ∀ r ∈ l, 0 < r.count)
    (hne : l ≠ []) : 0 < sumCounts l := by
  rw [sumCounts_def]
  apply List.sum_pos
  · intro x hx
    obtain ⟨r, hr, rfl⟩ := List.mem_map.mp hx
    exact hpos r hr
  · intro hc
    exact hne (by simpa using congrArg List.length hc)

/-- Total weight of a node is positive when all record weights are. -/
theorem node_total_pos {hs : List String} {data : List CSVRecord}
    (hpos : ∀ r ∈ data, 0 < r.count) {i : Nat} {n : SNode}
    (hget : (mkNodes data hs).get? i = some n) : 0 < n.totalValue := by
  obtain ⟨hh, hhd, hhead, hvmem, hid, htot⟩ := node_at_shape hget
  rw [htot]
  rw [mem_uniqueFirst, List.mem_map] at hvmem
  obtain ⟨r, hr, hrv⟩ := hvmem
  apply sumCounts_pos
  · intro r' hr'
    exact hpos r' (List.mem_of_mem_filter hr')
  · intro hc
    rw [List.filter_eq_nil_iff] at hc
    exact hc r hr (by simpa using hrv)

theorem data_ne_nil_of_node {hs : List String} {data : List CSVRecord}
    {i : Nat} {n : SNode} (hget : (mkNodes data hs).get? i = some n) :
    data ≠ [] := by
  obtain ⟨hh, hhd, hhead, hvmem, -⟩ := node_at_shape hget
  rw [mem_uniqueFirst, List.mem_map] at hvmem
  obtain ⟨r, hr, -⟩ := hvmem
  intro hc
  rw [hc] at hr
  cases hr

/-- Flow conservation through the computed layout, for a clean dataset with
positive record weights: a non-terminal node's outgoing source-side link
heights sum exactly to its own height, and a non-initial node's incoming
target-side link heights sum exactly to its own height. -/
theorem flow_conservation {hs : List String} {data : List CSVRecord}
    (W H : ℚ) (hcl : CleanData hs data) (hpos : ∀ r ∈ data, 0 < r.count)
    {i : Nat} {n : SNode}
    (hget : (prepareSankeyData data hs).nodes.get? i = some n) :
    (n.dimIndex + 1 < hs.length →
      jsum (((prepareSankeyData data hs).links.filter
          (fun l => l.source = i)).map
        (linkSourceHeight (prepareSankeyData data hs).nodes
          (calcNodePositions (prepareSankeyData data hs).nodes W H hs.length)))
        = (posAt (calcNodePositions (prepareSankeyData data hs).nodes W H
            hs.length) i).height)
    ∧ (0 < n.dimIndex →
      jsum (((prepareSankeyData data hs).links.filter
          (fun l => l.target = i)).map
        (linkTargetHeight (prepareSankeyData data hs).nodes
          (calcNodePositions (prepareSankeyData data hs).nodes W H hs.length)))
        = (posAt (calcNodePositions (prepareSankeyData data hs).nodes W H
            hs.length) i).height) := by
  rw [prepareSankeyData_nodes, prepareSankeyData_links] at *
  obtain ⟨hh, hhd, hhead, hvmem, hid, htot⟩ := node_at_shape hget
  obtain ⟨y, hpl⟩ := posLookup_calc hget W H hs.length
  have hposAt : posAt (calcNodePositions (mkNodes data hs) W H hs.length) i
      = ⟨(n.dimIndex : ℚ) * (W / (max 1 (hs.length - 1) : ℚ)), y,
          colHeight (mkNodes data hs) H n.dimIndex i⟩ := by
    rw [posAt, hpl]; rfl
  have hS : colTotal (mkNodes data hs) n.dimIndex = sumCounts data :=
    colTotal_mkNodes hhd
  have hSpos : 0 < sumCounts data :=
    sumCounts_pos hpos (data_ne_nil_of_node hget)
  have hnpos : 0 < n.totalValue := node_total_pos hpos hget
  set avail : ℚ := H - ((colCount (mkNodes data hs) n.dimIndex : ℚ) - 1) * 10
    with havail
  have hheight : colHeight (mkNodes data hs) H n.dimIndex i
      = some (n.totalValue / sumCounts data * avail) := by
    rw [colHeight, nodeAt_of_get? hget, hS, jdiv]
    rw [if_neg (ne_of_gt hSpos)]
    rfl
  constructor
  · intro hterm
    have hmap : ((mkLinks (mkNodes data hs) data hs).filter
          (fun l => l.source = i)).map
        (linkSourceHeight (mkNodes data hs)
          (calcNodePositions (mkNodes data hs) W H hs.length))
        = ((mkLinks (mkNodes data hs) data hs).filter
          (fun l => l.source = i)).map
        (fun l => some (l.value *
          ((n.totalValue / sumCounts data * avail) / n.totalValue))) := by
      apply List.map_congr_left
      intro l hl
      have hsrc : l.source = i := by
        simpa using (List.mem_filter.mp hl).2
      rw [linkSourceHeight, hsrc, nodeAt_of_get? hget, hposAt]
      show jmul (jdiv (some l.value) (some n.totalValue))
        (colHeight (mkNodes data hs) H n.dimIndex i) = _
      rw [hheight, jdiv, if_neg (ne_of_gt hnpos), jmul]
      congr 1
      ring
    rw [hmap, jsum_map_some, List.sum_map_mul_right, mkLinks_source_total hcl hget hterm,
      hposAt]
    show some _ = colHeight (mkNodes data hs) H n.dimIndex i
    rw [hheight]
    congr 1
    rw [mul_comm]
    exact div_mul_cancel₀ _ (ne_of_gt hnpos)
  · intro hinit
    have hmap : ((mkLinks (mkNodes data hs) data hs).filter
          (fun l => l.target = i)).map
        (linkTargetHeight (mkNodes data hs)
          (calcNodePositions (mkNodes data hs) W H hs.length))
        = ((mkLinks (mkNodes data hs) data hs).filter
          (fun l => l.target = i)).map
        (fun l => some (l.value *
          ((n.totalValue / sumCounts data * avail) / n.totalValue))) := by
      apply List.map_congr_left
      intro l hl
      have htgt : l.target = i := by
        simpa using (List.mem_filter.mp hl).2
      rw [linkTargetHeight, htgt, nodeAt_of_get? hget, hposAt]
      show jmul (jdiv (some l.value) (some n.totalValue))
        (colHeight (mkNodes data hs) H n.dimIndex i) = _
      rw [hheight, jdiv, if_neg (ne_of_gt hnpos), jmul]
      congr 1
      ring
    rw [hmap, jsum_map_some, List.sum_map_mul_right, mkLinks_target_total hcl hget hinit,
      hposAt]
    show some _ = colHeight (mkNodes data hs) H n.dimIndex i
    rw [hheight]
    congr 1
    rw [mul_comm]
    exact div_mul_cancel₀ _ (ne_of_gt hnpos)

/-! ## Filter/highlight engine (`updateLinkHighlights`, src/app.ts
lines 568–636) -/

/-- `selectedByDimension`: the selected nodes (`Array.from(selectedNodes)
.map(index => nodes[index])`) grouped by dimension name (`node.header`),
each entry collecting that dimension's selected values in push order. -/
def selectedByDimension (nodes : List SNode) (sel : List Nat) :
    List (String × List (Option String)) :=
  groupFold (fun n : SNode => n.header) ([] : List (Option String))
    (fun acc n => acc ++ [n.value]) (sel.map (fun i => nodeAt nodes i))

/-- `matchesSelection`: for **every** grouped dimension the record's value
is among the selected values of that dimension (AND across entries, OR
within an entry via `includes`). -/
def matchesSelection (selByDim : List (String × List (Option String)))
    (r : CSVRecord) : Bool :=
  selByDim.all (fun e => e.2.contains (r.get? e.1))

/-- `matchesLink`: the record carries this link's source and target
values. -/
def matchesLink (nodes : List SNode) (l : SLink) (r : CSVRecord) : Bool :=
  decide (r.get? (nodeAt nodes l.source).header = (nodeAt nodes l.source).value)
    && decide (r.get? (nodeAt nodes l.target).header = (nodeAt nodes l.target).value)

/-- The records `updateLinkHighlights` counts for one link: filtered from
the **global** dataset by link match and selection match. -/
def matchingRecords (data : List CSVRecord) (nodes : List SNode)
    (selByDim : List (String × List (Option String))) (l : SLink) :
    List CSVRecord :=
  data.filter (fun r => matchesLink nodes l r && matchesSelection selByDim r)

/-- `proportion = matchingCount > 0 ? matchingCount / link.value : 0`. -/
def linkProportion (data : List CSVRecord) (nodes : List SNode)
    (selByDim : List (String × List (Option String))) (l : SLink) : JsNum :=
  let matchingCount := sumCounts (matchingRecords data nodes selByDim l)
  if 0 < matchingCount then jdiv (some matchingCount) (some l.value)
  else some 0

theorem foldl_push {α β : Type} (f : α → β) (g : List α) :
    ∀ acc : List β, g.foldl (fun acc x => acc ++ [f x]) acc = acc ++ g.map f := by
  induction g with
  | nil => simp
  | cons x g ih => intro acc; rw [List.foldl_cons, ih]; simp

theorem selectedByDimension_eq (nodes : List SNode) (sel : List Nat) :
    selectedByDimension nodes sel
      = (uniqueFirst ((sel.map (fun i => nodeAt nodes i)).map SNode.header)).map
          (fun h => (h, ((sel.map (fun i => nodeAt nodes i)).filter
            (fun n => n.header = h)).map SNode.value)) := by
  rw [selectedByDimension, groupFold_eq, groupSpec]
  apply List.map_congr_left
  intro h _
  rw [foldl_push]
  simp

/-- The selection predicate holds iff, for every dimension name that has at
least one selected node, the record's value at that name is one of that
name's selected values. -/
theorem matchesSelection_iff (nodes : List SNode) (sel : List Nat)
    (r : CSVRecord) :
    matchesSelection (selectedByDimension nodes sel) r = true
      ↔ ∀ h : String, (∃ i ∈ sel, (nodeAt nodes i).header = h) →
          r.get? h ∈ ((sel.map (fun i => nodeAt nodes i)).filter
            (fun n => n.header = h)).map SNode.value := by
  rw [matchesSelection, selectedByDimension_eq, List.all_eq_true]
  constructor
  · intro hall h ⟨i, hi, hh⟩
    have hmem : h ∈ uniqueFirst ((sel.map (fun i => nodeAt nodes i)).map
        SNode.header) := by
      rw [mem_uniqueFirst, List.mem_map]
      exact ⟨nodeAt nodes i, List.mem_map_of_mem _ hi, hh⟩
    have := hall _ (List.mem_map_of_mem _ hmem)
    rw [← List.elem_iff]
    exact this
  · intro hin e he
    obtain ⟨h, hmem, rfl⟩ := List.mem_map.mp he
    rw [mem_uniqueFirst, List.mem_map] at hmem
    obtain ⟨m, hm, hh⟩ := hmem
    obtain ⟨i, hi, rfl⟩ := List.mem_map.mp hm
    have := hin h ⟨i, hi, hh⟩
    rw [← List.elem_iff] at this
    exact this

theorem decide_pair_eq (a b c d : Option String) :
    decide ((a, b) = (c, d)) = (decide (a = c) && decide (b = d)) := by
  by_cases h1 : a = c <;> by_cases h2 : b = d <;> simp [h1, h2]

theorem sumCounts_nonneg {l : List CSVRecord}
    (h : ∀ r ∈ l, 0 ≤ r.count) : 0 ≤ sumCounts l := by
  induction l with
  | nil => simp
  | cons r l ih =>
    rw [sumCounts_cons]
    have := h r (List.mem_cons_self r l)
    have := ih (fun r' hr' => h r' (List.mem_cons_of_mem r hr'))
    linarith

theorem sumCounts_filter_and_le {data : List CSVRecord}
    (hnn : ∀ r ∈ data, 0 ≤ r.count) (p q : CSVRecord → Bool) :
    sumCounts (data.filter (fun r => p r && q r))
      ≤ sumCounts (data.filter p) := by
  induction data with
  | nil => simp
  | cons r data ih =>
    have hr := hnn r (List.mem_cons_self r data)
    have ih' := ih (fun r' hr' => hnn r' (List.mem_cons_of_mem r hr'))
    by_cases hp : p r
    · by_cases hq : q r
      · simp only [List.filter_cons, hp, hq, Bool.and_self, if_true,
          Bool.and_true, sumCounts_cons]
        linarith
      · simp only [List.filter_cons, hp, hq, Bool.and_false, if_true,
          Bool.false_eq_true, if_false, sumCounts_cons]
        linarith
    · simp only [List.filter_cons, hp, Bool.false_and, Bool.false_eq_true,
        if_false]
      exact ih'

/-- For a clean link, the link-endpoint filter of `updateLinkHighlights`
agrees with the value-pair filter that characterises the link's retained
records. -/
theorem matchesLink_eq_pair {hs : List String} {data : List CSVRecord}
    (hcl : CleanData hs data) {l : SLink}
    (hl : l ∈ mkLinks (mkNodes data hs) data hs) :
    ∃ v w,
      (∀ r, matchesLink (mkNodes data hs) l r
        = decide ((r.get? (nodeAt (mkNodes data hs) l.source).header,
            r.get? (nodeAt (mkNodes data hs) l.target).header)
              = (some v, some w))) ∧
      l.records = data.filter (fun r =>
        (r.get? (nodeAt (mkNodes data hs) l.source).header,
         r.get? (nodeAt (mkNodes data hs) l.target).header)
          = (some v, some w)) ∧
      l.value = sumCounts l.records := by
  obtain ⟨d, sH, tH, hsd, htd, hpass⟩ := mem_mkLinks.mp hl
  obtain ⟨v, w, hS, hT, hval, hrec, -⟩ := clean_link_shape hcl hsd htd hpass
  have hnS := nodeAt_of_get? hS
  have hnT := nodeAt_of_get? hT
  refine ⟨v, w, ?_, ?_, ?_⟩
  · intro r
    rw [matchesLink, hnS, hnT, decide_pair_eq]
  · rw [hrec, hnS, hnT]
  · rw [hval, hrec]

/-- **Refinement (clean case):** filtering the global dataset by link-match
plus selection equals filtering the link's own retained records by the
selection — as lists, hence as multisets. -/
theorem matchingRecords_eq_retained {hs : List String}
    {data : List CSVRecord} (hcl : CleanData hs data) {l : SLink}
    (hl : l ∈ mkLinks (mkNodes data hs) data hs)
    (selByDim : List (String × List (Option String))) :
    matchingRecords data (mkNodes data hs) selByDim l
      = l.records.filter (fun r => matchesSelection selByDim r) := by
  obtain ⟨v, w, hml, hrec, -⟩ := matchesLink_eq_pair hcl hl
  rw [matchingRecords]
  have hcongr : data.filter (fun r =>
        matchesLink (mkNodes data hs) l r && matchesSelection selByDim r)
      = data.filter (fun r =>
        (decide ((r.get? (nodeAt (mkNodes data hs) l.source).header,
          r.get? (nodeAt (mkNodes data hs) l.target).header)
            = (some v, some w)))
          && matchesSelection selByDim r) := by
    apply List.filter_congr
    intro r _
    rw [hml r]
  rw [hcongr, hrec, List.filter_filter]
  apply List.filter_congr
  intro r _
  rw [Bool.and_comm]

/-- **Proportion bounds (clean case):** the computed matching proportion is
a finite rational in `[0, 1]`. -/
theorem linkProportion_in_unit {hs : List String} {data : List CSVRecord}
    (hcl : CleanData hs data) (hnn : ∀ r ∈ data, 0 ≤ r.count) {l : SLink}
    (hl : l ∈ mkLinks (mkNodes data hs) data hs)
    (selByDim : List (String × List (Option String))) :
    ∃ q, linkProportion data (mkNodes data hs) selByDim l = some q ∧
      0 ≤ q ∧ q ≤ 1 := by
  obtain ⟨v, w, hml, hrec, hval⟩ := matchesLink_eq_pair hcl hl
  have hmc_le : sumCounts (matchingRecords data (mkNodes data hs) selByDim l)
      ≤ l.value := by
    rw [matchingRecords]
    have hcongr : data.filter (fun r =>
          matchesLink (mkNodes data hs) l r && matchesSelection selByDim r)
        = data.filter (fun r =>
          (decide ((r.get? (nodeAt (mkNodes data hs) l.source).header,
            r.get? (nodeAt (mkNodes data hs) l.target).header)
              = (some v, some w)))
            && matchesSelection selByDim r) := by
      apply List.filter_congr
      intro r _
      rw [hml r]
    rw [hcongr, hval, hrec]
    exact sumCounts_filter_and_le hnn _ _
  have hmc_nn : 0 ≤ sumCounts (matchingRecords data (mkNodes data hs) selByDim l) := by
    apply sumCounts_nonneg
    intro r hr
    exact hnn r (List.mem_of_mem_filter hr)
  rw [linkProportion]
  by_cases hpos : 0 < sumCounts (matchingRecords data (mkNodes data hs) selByDim l)
  · rw [if_pos hpos]
    have hlv : 0 < l.value := lt_of_lt_of_le hpos hmc_le
    rw [jdiv, if_neg (ne_of_gt hlv)]
    refine ⟨_, rfl, ?_, ?_⟩
    · exact div_nonneg (le_of_lt hpos) (le_of_lt hlv)
    · rw [div_le_one hlv]
      exact hmc_le
  · rw [if_neg hpos]
    exact ⟨0, rfl, le_refl 0, by norm_num⟩

/-! ## Identity uniqueness (aggregation) -/

theorem mkNodesAux_dimvalue_pairwise (data : List CSVRecord) :
    ∀ (i : Nat) (hs : List String),
      (mkNodesAux data i hs).Pairwise
        (fun a b => a.dimIndex = b.dimIndex → a.value ≠ b.value) := by
  intro i hs
  induction hs generalizing i with
  | nil => exact List.Pairwise.nil
  | cons h rest ih =>
    rw [mkNodesAux, List.pairwise_append]
    refine ⟨?_, ih (i + 1), ?_⟩
    · rw [dimNodes, List.pairwise_map]
      have hnodup : List.Pairwise (fun v v' => v ≠ v')
          (uniqueFirst (data.map (fun r => r.get? h))) :=
        nodup_uniqueFirst _
      refine List.Pairwise.imp ?_ hnodup
      intro a b hne _
      exact hne
    · intro a ha b hb
      rw [dimIndex_of_mem_dimNodes ha]
      have := mkNodesAux_dim_ge hb
      intro hdim
      omega
  
/-- **Node identity uniqueness (all datasets):** the derived key
`(dimIndex, value)` is injective over the produced node list. -/
theorem mkNodes_key_injective {data : List CSVRecord} {hs : List String}
    {i j : Nat} {ni nj : SNode} (hi : (mkNodes data hs).get? i = some ni)
    (hj : (mkNodes data hs).get? j = some nj)
    (hdim : ni.dimIndex = nj.dimIndex) (hval : ni.value = nj.value) :
    i = j := by
  rw [mkNodes] at hi hj
  have hpw := mkNodesAux_dimvalue_pairwise data 0 hs
  rw [List.pairwise_iff_get] at hpw
  obtain ⟨hbi, hgi⟩ := List.get?_eq_some.mp hi
  obtain ⟨hbj, hgj⟩ := List.get?_eq_some.mp hj
  rcases Nat.lt_trichotomy i j with hlt | heq | hgt
  · exact absurd hval (by
      have := hpw ⟨i, hbi⟩ ⟨j, hbj⟩ hlt
      rw [hgi, hgj] at this
      exact this hdim)
  · exact heq
  · exact absurd hval.symm (by
      have := hpw ⟨j, hbj⟩ ⟨i, hbi⟩ hgt
      rw [hgi, hgj] at this
      exact this hdim.symm)

/-- Within one clean pass, no two links share `(source, target)`. -/
theorem pass_pairwise_inj {hs : List String} {data : List CSVRecord}
    (hcl : CleanData hs data) {d : Nat} {sH tH : String}
    (hsd : hs.get? d = some sH) (htd : hs.get? (d + 1) = some tH) :
    (mkLinksForDim (mkNodes data hs) data sH tH).Pairwise
      (fun l1 l2 => ¬(l1.source = l2.source ∧ l1.target = l2.target)) := by
  rw [mkLinksForDim_clean hcl hsd htd, List.pairwise_map]
  have hnodup : List.Pairwise (fun v v' => v ≠ v')
      (uniqueFirst (data.map (fun r => (r.get? sH, r.get? tH)))) :=
    nodup_uniqueFirst _
  refine List.Pairwise.imp_of_mem ?_ hnodup
  rintro vv vv' hvv hvv' hne ⟨hsrc, htgt⟩
  have hv1mem : vv.1 ∈ uniqueFirst (data.map (fun r => r.get? sH)) := by
    obtain ⟨r, hr, hpair⟩ := List.mem_map.mp (mem_uniqueFirst.mp hvv)
    rw [mem_uniqueFirst, ← hpair]
    exact List.mem_map_of_mem _ hr
  have hv2mem : vv.2 ∈ uniqueFirst (data.map (fun r => r.get? tH)) := by
    obtain ⟨r, hr, hpair⟩ := List.mem_map.mp (mem_uniqueFirst.mp hvv)
    rw [mem_uniqueFirst, ← hpair]
    exact List.mem_map_of_mem _ hr
  have hv1mem' : vv'.1 ∈ uniqueFirst (data.map (fun r => r.get? sH)) := by
    obtain ⟨r, hr, hpair⟩ := List.mem_map.mp (mem_uniqueFirst.mp hvv')
    rw [mem_uniqueFirst, ← hpair]
    exact List.mem_map_of_mem _ hr
  have hv2mem' : vv'.2 ∈ uniqueFirst (data.map (fun r => r.get? tH)) := by
    obtain ⟨r, hr, hpair⟩ := List.mem_map.mp (mem_uniqueFirst.mp hvv')
    rw [mem_uniqueFirst, ← hpair]
    exact List.mem_map_of_mem _ hr
  obtain ⟨jS, hlS, hgS⟩ := clean_lastIdxOf hcl hsd hv1mem
  obtain ⟨jT, hlT, hgT⟩ := clean_lastIdxOf hcl htd hv2mem
  obtain ⟨jS', hlS', hgS'⟩ := clean_lastIdxOf hcl hsd hv1mem'
  obtain ⟨jT', hlT', hgT'⟩ := clean_lastIdxOf hcl htd hv2mem'
  have hS : (canonLink (mkNodes data hs) data sH tH vv).source = jS := by
    rw [canonLink, hlS]; rfl
  have hS' : (canonLink (mkNodes data hs) data sH tH vv').source = jS' := by
    rw [canonLink, hlS']; rfl
  have hT : (canonLink (mkNodes data hs) data sH tH vv).target = jT := by
    rw [canonLink, hlT]; rfl
  have hT' : (canonLink (mkNodes data hs) data sH tH vv').target = jT' := by
    rw [canonLink, hlT']; rfl
  rw [hS, hS'] at hsrc
  rw [hT, hT'] at htgt
  subst hsrc
  subst htgt
  rw [hgS] at hgS'
  rw [hgT] at hgT'
  apply hne
  have h1 : vv.1 = vv'.1 := by
    have := congrArg (fun o => (Option.map SNode.value o).getD none) hgS'
    simpa using this
  have h2 : vv.2 = vv'.2 := by
    have := congrArg (fun o => (Option.map SNode.value o).getD none) hgT'
    simpa using this
  exact Prod.ext h1 h2

/-- Links of different clean passes never share a source node. -/
theorem cross_pass_source_ne {hs : List String} {data : List CSVRecord}
    (hcl : CleanData hs data) {d d' : Nat} {sH tH sH' tH' : String}
    (hsd : hs.get? d = some sH) (htd : hs.get? (d + 1) = some tH)
    (hsd' : hs.get? d' = some sH') (htd' : hs.get? (d' + 1) = some tH')
    (hne : d ≠ d') {l1 l2 : SLink}
    (h1 : l1 ∈ mkLinksForDim (mkNodes data hs) data sH tH)
    (h2 : l2 ∈ mkLinksForDim (mkNodes data hs) data sH' tH') :
    l1.source ≠ l2.source := by
  obtain ⟨v, w, hS1, -⟩ := clean_link_shape hcl hsd htd h1
  obtain ⟨v', w', hS2, -⟩ := clean_link_shape hcl hsd' htd' h2
  intro he
  rw [he, hS2] at hS1
  have := congrArg (fun o => (Option.map SNode.dimIndex o).getD 0) hS1
  simp at this
  exact hne this.symm

/-- **Link identity uniqueness (clean datasets):** no two produced links
share the `(source, target)` key. -/
theorem mkLinks_pairwise_inj {hs : List String} {data : List CSVRecord}
    (hcl : CleanData hs data) :
    ∀ (suffix : List String) (d : Nat), hs.drop d = suffix →
      (mkLinks (mkNodes data hs) data suffix).Pairwise
        (fun l1 l2 => ¬(l1.source = l2.source ∧ l1.target = l2.target)) := by
  intro suffix
  induction suffix with
  | nil => intro d _; exact List.Pairwise.nil
  | cons h1 tail ih =>
    intro d hdrop
    match tail with
    | [] => exact List.Pairwise.nil
    | h2 :: rest =>
      have hh1 : hs.get? d = some h1 := by
        have := List.get?_drop hs d 0
        rw [hdrop] at this
        simpa using this.symm
      have hh2 : hs.get? (d + 1) = some h2 := by
        have := List.get?_drop hs d 1
        rw [hdrop] at this
        simpa using this.symm
      have hdrop' : hs.drop (d + 1) = h2 :: rest := by
        rw [← List.tail_drop, hdrop]
        rfl
      rw [show mkLinks (mkNodes data hs) data (h1 :: h2 :: rest)
          = mkLinksForDim (mkNodes data hs) data h1 h2
            ++ mkLinks (mkNodes data hs) data (h2 :: rest) from rfl]
      rw [List.pairwise_append]
      refine ⟨pass_pairwise_inj hcl hh1 hh2, ih (d + 1) hdrop', ?_⟩
      rintro a ha b hb ⟨hsrc, -⟩
      obtain ⟨i', sH', tH', hgi, hgi1, hb'⟩ := mem_mkLinks.mp hb
      have hgi' : hs.get? (d + 1 + i') = some sH' := by
        have := List.get?_drop hs (d + 1) i'
        rw [hdrop'] at this
        rw [← this]
        exact hgi
      have hgi1' : hs.get? (d + 1 + i' + 1) = some tH' := by
        have := List.get?_drop hs (d + 1) (i' + 1)
        rw [hdrop'] at this
        rw [show d + 1 + i' + 1 = d + 1 + (i' + 1) by omega, ← this]
        exact hgi1
      exact cross_pass_source_ne hcl hh1 hh2 hgi' hgi1'
        (by omega) ha hb' hsrc

/-! ## Link-position pass (`calculatePositions`, src/app.ts lines 341–436)

The second half of `calculatePositions` walks the nodes in index order;
for each node it lays out its outgoing links (creating the
`linkPositions` entries) and then its incoming links (mutating the
stored entry's `targetY`, with a fallback branch marked
"This shouldn't happen" that creates a fresh entry). The Bool flag
threaded below records whether that fallback branch was ever taken. -/

/-- One `linkPositions` entry (src/app.ts line 304). -/
structure LinkPos where
  sourceY : JsNum
  targetY : JsNum
  height : JsNum
  sourceHeight : JsNum
  targetHeight : JsNum
  deriving DecidableEq, Repr

/-- `linkPositions.get(j)`. -/
def getAssoc (m : List (Nat × LinkPos)) (j : Nat) : Option LinkPos :=
  (m.find? (fun p => p.1 = j)).map Prod.snd

/-- `linkPositions.set(j, v)`: replace the existing entry in place, else
append a new one. -/
def setAssoc (m : List (Nat × LinkPos)) (j : Nat) (v : LinkPos) :
    List (Nat × LinkPos) :=
  if m.any (fun p => p.1 = j) then
    m.map (fun p => if p.1 = j then (j, v) else p)
  else m ++ [(j, v)]

/-- `linkData.targetY = currentTargetY` (in-place mutation of the stored
entry, src/app.ts line 422). -/
def updateTargetY (m : List (Nat × LinkPos)) (j : Nat) (y : JsNum) :
    List (Nat × LinkPos) :=
  m.map (fun p => if p.1 = j then
    (p.1, ⟨p.2.sourceY, y, p.2.height, p.2.sourceHeight, p.2.targetHeight⟩)
    else p)

theorem getAssoc_cons_eq {p : Nat × LinkPos} {k : Nat} (h : p.1 = k)
    (rest : List (Nat × LinkPos)) :
    getAssoc (p :: rest) k = some p.2 := by
  rw [getAssoc, List.find?_cons_of_pos _ (by simp [h])]
  rfl

theorem getAssoc_cons_ne {p : Nat × LinkPos} {k : Nat} (h : ¬ (p.1 = k))
    (rest : List (Nat × LinkPos)) :
    getAssoc (p :: rest) k = getAssoc rest k := by
  rw [getAssoc, List.find?_cons_of_neg _ (by simp [h])]
  rfl

theorem getAssoc_map_set_self (m : List (Nat × LinkPos)) (j : Nat)
    (v : LinkPos) :
    getAssoc (m.map (fun p => if p.1 = j then (j, v) else p)) j
      = if m.any (fun p => p.1 = j) then some v else none := by
  induction m with
  | nil => rfl
  | cons p rest ih =>
    rw [List.map_cons, List.any_cons]
    by_cases hp : p.1 = j
    · rw [if_pos hp, getAssoc_cons_eq (show ((j, v) : Nat × LinkPos).1 = j from rfl) _]
      simp [hp]
    · have hd : (decide (p.1 = j)) = false := by simp [hp]
      rw [if_neg hp,
        getAssoc_cons_ne (show ¬ ((p : Nat × LinkPos).1 = j) from hp) _,
        ih, hd, Bool.false_or]

theorem getAssoc_map_set_ne (m : List (Nat × LinkPos)) (j k : Nat)
    (v : LinkPos) (h : k ≠ j) :
    getAssoc (m.map (fun p => if p.1 = j then (j, v) else p)) k
      = getAssoc m k := by
  induction m with
  | nil => rfl
  | cons p rest ih =>
    rw [List.map_cons]
    by_cases hp : p.1 = j
    · rw [if_pos hp,
        getAssoc_cons_ne (show ¬ (((j, v) : Nat × LinkPos).1 = k) from
          fun he => h (he.symm)) _,
        getAssoc_cons_ne (show ¬ ((p : Nat × LinkPos).1 = k) from
          fun he => h (hp ▸ he).symm) _]
      exact ih
    · rw [if_neg hp]
      by_cases hpk : p.1 = k
      · rw [getAssoc_cons_eq hpk _, getAssoc_cons_eq hpk _]
      · rw [getAssoc_cons_ne hpk _, getAssoc_cons_ne hpk _]
        exact ih

theorem getAssoc_append (m : List (Nat × LinkPos)) (j k : Nat) (v : LinkPos) :
    getAssoc (m ++ [(j, v)]) k
      = (getAssoc m k).or (if j = k then some v else none) := by
  rw [getAssoc, List.find?_append]
  cases hf : m.find? (fun p => p.1 = k) with
  | some p => simp [getAssoc, hf]
  | none =>
    by_cases hj : j = k
    · simp [getAssoc, hf, hj, List.find?]
    · simp [getAssoc, hf, hj, List.find?]

theorem getAssoc_setAssoc (m : List (Nat × LinkPos)) (j k : Nat)
    (v : LinkPos) :
    getAssoc (setAssoc m j v) k = if k = j then some v else getAssoc m k := by
  rw [setAssoc]
  by_cases hany : m.any (fun p => p.1 = j)
  · rw [if_pos hany]
    by_cases hk : k = j
    · subst hk; rw [getAssoc_map_set_self, if_pos hany, if_pos rfl]
    · rw [getAssoc_map_set_ne _ _ _ _ hk, if_neg hk]
  · rw [if_neg hany, getAssoc_append]
    by_cases hk : k = j
    · subst hk
      have hnone : getAssoc m k = none := by
        rw [getAssoc, List.find?_eq_none.mpr]
        · rfl
        · intro x hx
          simp only [decide_eq_true_eq]
          intro hxk
          exact hany (List.any_eq_true.mpr ⟨x, hx, by simpa using hxk⟩)
      simp [hnone]
    · rw [if_neg (fun he => hk he.symm), if_neg hk, Option.or_none]

theorem getAssoc_updateTargetY_isSome (m : List (Nat × LinkPos)) (j : Nat)
    (y : JsNum) (k : Nat) :
    (getAssoc (updateTargetY m j y) k).isSome = (getAssoc m k).isSome := by
  induction m with
  | nil => rfl
  | cons p rest ih =>
    rw [updateTargetY, List.map_cons]
    have hfst : ((if p.1 = j then
        ((p.1 : Nat), (⟨p.2.sourceY, y, p.2.height, p.2.sourceHeight,
          p.2.targetHeight⟩ : LinkPos)) else p)).1 = p.1 := by
      split <;> rfl
    by_cases hpk : p.1 = k
    · rw [getAssoc_cons_eq (hfst.trans hpk) _, getAssoc_cons_eq hpk _]
      rfl
    · rw [getAssoc_cons_ne (fun he => hpk (hfst.symm.trans he)) _,
        getAssoc_cons_ne hpk _]
      exact ih

/-! ### Sorting and grouping of link indices -/


/-- Comparator order for the link sorts (src/app.ts lines 385–389 and
410–414 sort by a `y`-coordinate difference). Only the permutation
property of the sort is relied on below, which holds for any comparator. -/
def jleB : JsNum → JsNum → Bool
  | some a, some b => decide (a ≤ b)
  | _, _ => true

def insertByY (key : Nat → JsNum) (j : Nat) : List Nat → List Nat
  | [] => [j]
  | k :: rest =>
    if jleB (key j) (key k) then j :: k :: rest else k :: insertByY key j rest

/-- Stable insertion sort standing in for `Array.prototype.sort`. -/
def sortByY (key : Nat → JsNum) : List Nat → List Nat
  | [] => []
  | j :: rest => insertByY key j (sortByY key rest)

theorem mem_insertByY (key : Nat → JsNum) (j k : Nat) :
    ∀ l, (k ∈ insertByY key j l ↔ k = j ∨ k ∈ l) := by
  intro l
  induction l with
  | nil => simp [insertByY]
  | cons a rest ih =>
    rw [insertByY]
    cases hb : jleB (key j) (key a) with
    | true => simp [hb]
    | false =>
      simp only [hb, Bool.false_eq_true, if_false, List.mem_cons, ih]
      tauto

theorem mem_sortByY (key : Nat → JsNum) (k : Nat) :
    ∀ l, (k ∈ sortByY key l ↔ k ∈ l) := by
  intro l
  induction l with
  | nil => simp [sortByY]
  | cons a rest ih => simp [sortByY, mem_insertByY, ih]

/-! grouping of link indices -/

/-- `nodeOutgoingLinks.get(i) || []` (src/app.ts lines 342–356): link
indices grouped by `link.source` with the JS-`Map` push pattern. -/
def outLinksOf (links : List SLink) (i : Nat) : List Nat :=
  (((groupFold (fun p : Nat × SLink => p.2.source) ([] : List Nat)
    (fun acc p => acc ++ [p.1]) links.enum).find? (fun p => p.1 = i)).map
      Prod.snd).getD []

/-- `nodeIncomingLinks.get(i) || []` (src/app.ts lines 342–356). -/
def inLinksOf (links : List SLink) (i : Nat) : List Nat :=
  (((groupFold (fun p : Nat × SLink => p.2.target) ([] : List Nat)
    (fun acc p => acc ++ [p.1]) links.enum).find? (fun p => p.1 = i)).map
      Prod.snd).getD []

theorem find?_key_map {κ β : Type} [DecidableEq κ] (f : κ → β) (i : κ) :
    ∀ ks : List κ, i ∈ ks →
      (ks.map (fun k => (k, f k))).find? (fun p => p.1 = i) = some (i, f i) := by
  intro ks
  induction ks with
  | nil => intro h; cases h
  | cons k rest ih =>
    intro hmem
    rw [List.map_cons]
    by_cases hk : k = i
    · subst hk
      rw [List.find?_cons_of_pos _ (by simp)]
    · rw [List.find?_cons_of_neg _ (by simp [hk])]
      refine ih ?_
      rcases List.mem_cons.mp hmem with h | h
      · exact absurd h.symm hk
      · exact h

theorem outLinksOf_eq (links : List SLink) (i : Nat) :
    outLinksOf links i
      = (links.enum.filter (fun p => p.2.source = i)).map Prod.fst := by
  rw [outLinksOf, groupFold_eq, groupSpec]
  by_cases hmem : i ∈ links.enum.map (fun p => p.2.source)
  · rw [find?_key_map _ i _ (mem_uniqueFirst.mpr hmem)]
    rw [Option.map_some', Option.getD_some, foldl_push_idx]
    simp
  · have hnone : ((uniqueFirst (links.enum.map (fun p => p.2.source))).map
        (fun K => (K, (links.enum.filter
          (fun a => (fun p : Nat × SLink => p.2.source) a = K)).foldl
            (fun acc p => acc ++ [p.1]) []))).find? (fun p => p.1 = i)
          = none := by
      apply List.find?_eq_none.mpr
      rintro ⟨K, b⟩ hKb
      obtain ⟨K', hK', hEq⟩ := List.mem_map.mp hKb
      simp only [Prod.mk.injEq] at hEq
      simp only [decide_eq_true_eq]
      intro h
      apply hmem
      apply mem_uniqueFirst.mp
      rw [← h, ← hEq.1]
      exact hK'
    rw [hnone]
    have hfilter : links.enum.filter (fun p => p.2.source = i) = [] := by
      rw [List.filter_eq_nil_iff]
      intro p hp
      simp only [decide_eq_true_eq]
      intro h
      exact hmem (List.mem_map.mpr ⟨p, hp, h⟩)
    rw [hfilter]
    rfl

theorem inLinksOf_eq (links : List SLink) (i : Nat) :
    inLinksOf links i
      = (links.enum.filter (fun p => p.2.target = i)).map Prod.fst := by
  rw [inLinksOf, groupFold_eq, groupSpec]
  by_cases hmem : i ∈ links.enum.map (fun p => p.2.target)
  · rw [find?_key_map _ i _ (mem_uniqueFirst.mpr hmem)]
    rw [Option.map_some', Option.getD_some, foldl_push_idx]
    simp
  · have hnone : ((uniqueFirst (links.enum.map (fun p => p.2.target))).map
        (fun K => (K, (links.enum.filter
          (fun a => (fun p : Nat × SLink => p.2.target) a = K)).foldl
            (fun acc p => acc ++ [p.1]) []))).find? (fun p => p.1 = i)
          = none := by
      apply List.find?_eq_none.mpr
      rintro ⟨K, b⟩ hKb
      obtain ⟨K', hK', hEq⟩ := List.mem_map.mp hKb
      simp only [Prod.mk.injEq] at hEq
      simp only [decide_eq_true_eq]
      intro h
      apply hmem
      apply mem_uniqueFirst.mp
      rw [← h, ← hEq.1]
      exact hK'
    rw [hnone]
    have hfilter : links.enum.filter (fun p => p.2.target = i) = [] := by
      rw [List.filter_eq_nil_iff]
      intro p hp
      simp only [decide_eq_true_eq]
      intro h
      exact hmem (List.mem_map.mpr ⟨p, hp, h⟩)
    rw [hfilter]
    rfl

theorem mem_outLinksOf {links : List SLink} {i j : Nat} :
    j ∈ outLinksOf links i ↔ ∃ l, links.get? j = some l ∧ l.source = i := by
  rw [outLinksOf_eq]
  constructor
  · intro h
    obtain ⟨⟨j', l⟩, hp, he⟩ := List.mem_map.mp h
    cases he
    have hpm := List.mem_filter.mp hp
    exact ⟨l, List.mem_enum_iff_get?.mp hpm.1, by simpa using hpm.2⟩
  · rintro ⟨l, hget, hsrc⟩
    exact List.mem_map.mpr ⟨(j, l), List.mem_filter.mpr
      ⟨List.mem_enum_iff_get?.mpr (by simpa using hget), by simpa using hsrc⟩,
      rfl⟩

theorem mem_inLinksOf {links : List SLink} {i j : Nat} :
    j ∈ inLinksOf links i ↔ ∃ l, links.get? j = some l ∧ l.target = i := by
  rw [inLinksOf_eq]
  constructor
  · intro h
    obtain ⟨⟨j', l⟩, hp, he⟩ := List.mem_map.mp h
    cases he
    have hpm := List.mem_filter.mp hp
    exact ⟨l, List.mem_enum_iff_get?.mp hpm.1, by simpa using hpm.2⟩
  · rintro ⟨l, hget, htgt⟩
    exact List.mem_map.mpr ⟨(j, l), List.mem_filter.mpr
      ⟨List.mem_enum_iff_get?.mpr (by simpa using hget), by simpa using htgt⟩,
      rfl⟩

/-! the pass -/

/-- `links[j]` (always in bounds where used). -/
def linkAt (links : List SLink) (j : Nat) : SLink := (links.get? j).getD default

/-- The outgoing-links loop of one node (src/app.ts lines 391–406):
create each link's `linkPositions` entry and advance the source cursor. -/
def outgoingFold (nodes : List SNode) (links : List SLink)
    (nposs : List (Nat × NodePos)) :
    List Nat → List (Nat × LinkPos) → JsNum → List (Nat × LinkPos)
  | [], m, _ => m
  | j :: rest, m, curY =>
    outgoingFold nodes links nposs rest
      (setAssoc m j
        ⟨curY, some 0, linkSourceHeight nodes nposs (linkAt links j),
          linkSourceHeight nodes nposs (linkAt links j),
          linkTargetHeight nodes nposs (linkAt links j)⟩)
      (jadd curY (linkSourceHeight nodes nposs (linkAt links j)))

/-- The incoming-links loop of one node (src/app.ts lines 416–435): set
`targetY` on the stored entry; the `none` branch is the source's
"This shouldn't happen" fallback (lines 423–432), recorded in the flag. -/
def incomingFold (nodes : List SNode) (links : List SLink)
    (nposs : List (Nat × NodePos)) :
    List Nat → List (Nat × LinkPos) × Bool → JsNum → List (Nat × LinkPos) × Bool
  | [], st, _ => st
  | j :: rest, st, curY =>
    match getAssoc st.1 j with
    | some _ =>
      incomingFold nodes links nposs rest (updateTargetY st.1 j curY, st.2)
        (jadd curY (linkTargetHeight nodes nposs (linkAt links j)))
    | none =>
      incomingFold nodes links nposs rest
        (setAssoc st.1 j
          ⟨some 0, curY, linkTargetHeight nodes nposs (linkAt links j),
            linkTargetHeight nodes nposs (linkAt links j),
            linkTargetHeight nodes nposs (linkAt links j)⟩, true)
        (jadd curY (linkTargetHeight nodes nposs (linkAt links j)))

/-- One iteration of the `nodes.forEach` loop (src/app.ts lines 380–436). -/
def processNode (nodes : List SNode) (links : List SLink)
    (nposs : List (Nat × NodePos)) (st : List (Nat × LinkPos) × Bool)
    (i : Nat) : List (Nat × LinkPos) × Bool :=
  incomingFold nodes links nposs
    (sortByY (fun j => (posAt nposs (linkAt links j).source).y) (inLinksOf links i))
    (outgoingFold nodes links nposs
      (sortByY (fun j => (posAt nposs (linkAt links j).target).y)
        (outLinksOf links i))
      st.1 (posAt nposs i).y, st.2)
    (posAt nposs i).y

/-- The whole link-position pass; the Bool is true iff the fallback
branch was ever taken. -/
def linkPosPass (nodes : List SNode) (links : List SLink)
    (nposs : List (Nat × NodePos)) : List (Nat × LinkPos) × Bool :=
  (List.range nodes.length).foldl (processNode nodes links nposs) ([], false)

/-- `calculatePositions` (src/app.ts lines 301–439), returning the node
positions, the link positions and the fallback flag. -/
def calculatePositions (nodes : List SNode) (links : List SLink)
    (chartW chartH : ℚ) (ndims : Nat) :
    List (Nat × NodePos) × List (Nat × LinkPos) × Bool :=
  (calcNodePositions nodes chartW chartH ndims,
    linkPosPass nodes links (calcNodePositions nodes chartW chartH ndims))

/-! invariant -/

/-- Invariant of the node loop: after the first `c` nodes, `linkPositions`
holds exactly the links whose source index is below `c`. -/
def entryInv (links : List SLink) (c : Nat) (m : List (Nat × LinkPos)) : Prop :=
  ∀ j, (getAssoc m j).isSome = true ↔ ∃ l, links.get? j = some l ∧ l.source < c

theorem outgoingFold_hasEntry (nodes : List SNode) (links : List SLink)
    (nposs : List (Nat × NodePos)) :
    ∀ (out : List Nat) (m : List (Nat × LinkPos)) (curY : JsNum) (k : Nat),
      (getAssoc (outgoingFold nodes links nposs out m curY) k).isSome = true
        ↔ (getAssoc m k).isSome = true ∨ k ∈ out := by
  intro out
  induction out with
  | nil =>
    intro m curY k
    simp [outgoingFold]
  | cons j rest ih =>
    intro m curY k
    rw [outgoingFold, ih, getAssoc_setAssoc]
    by_cases hk : k = j
    · simp [hk]
    · simp [hk]

theorem incomingFold_inv (nodes : List SNode) (links : List SLink)
    (nposs : List (Nat × NodePos)) :
    ∀ (inc : List Nat) (m : List (Nat × LinkPos)) (fl : Bool) (curY : JsNum),
      (∀ j ∈ inc, (getAssoc m j).isSome = true) →
      (incomingFold nodes links nposs inc (m, fl) curY).2 = fl ∧
      ∀ k, (getAssoc (incomingFold nodes links nposs inc (m, fl) curY).1 k).isSome
          = (getAssoc m k).isSome := by
  intro inc
  induction inc with
  | nil => intro m fl curY _; exact ⟨rfl, fun k => rfl⟩
  | cons j rest ih =>
    intro m fl curY hall
    have hj := hall j (List.mem_cons_self _ _)
    cases hgj : getAssoc m j with
    | none => rw [hgj] at hj; simp at hj
    | some v =>
      have hstep : incomingFold nodes links nposs (j :: rest) (m, fl) curY
          = incomingFold nodes links nposs rest (updateTargetY m j curY, fl)
            (jadd curY (linkTargetHeight nodes nposs (linkAt links j))) := by
        rw [incomingFold, hgj]
      rw [hstep]
      have hrest : ∀ j' ∈ rest,
          (getAssoc (updateTargetY m j curY) j').isSome = true := by
        intro j' hj'
        rw [getAssoc_updateTargetY_isSome]
        exact hall j' (List.mem_cons_of_mem _ hj')
      obtain ⟨h1, h2⟩ := ih (updateTargetY m j curY) fl _ hrest
      exact ⟨h1, fun k => (h2 k).trans (getAssoc_updateTargetY_isSome m j curY k)⟩

theorem processNode_inv {nodes : List SNode} {links : List SLink}
    {nposs : List (Nat × NodePos)}
    (hlt : ∀ {j l}, links.get? j = some l → l.source < l.target)
    {i : Nat} {st : List (Nat × LinkPos) × Bool}
    (hflag : st.2 = false) (hinv : entryInv links i st.1) :
    (processNode nodes links nposs st i).2 = false ∧
    entryInv links (i + 1) (processNode nodes links nposs st i).1 := by
  have hout : ∀ k, (getAssoc (outgoingFold nodes links nposs
      (sortByY (fun j => (posAt nposs (linkAt links j).target).y)
        (outLinksOf links i)) st.1 (posAt nposs i).y) k).isSome = true
      ↔ ∃ l, links.get? k = some l ∧ l.source < i + 1 := by
    intro k
    rw [outgoingFold_hasEntry]
    constructor
    · rintro (h | h)
      · obtain ⟨l, hl, hlt'⟩ := (hinv k).mp h
        exact ⟨l, hl, by omega⟩
      · obtain ⟨l, hl, hsrc⟩ := mem_outLinksOf.mp ((mem_sortByY _ _ _).mp h)
        exact ⟨l, hl, by omega⟩
    · rintro ⟨l, hl, hlt'⟩
      by_cases hs : l.source < i
      · exact Or.inl ((hinv k).mpr ⟨l, hl, hs⟩)
      · have hsi : l.source = i := by omega
        exact Or.inr ((mem_sortByY _ _ _).mpr (mem_outLinksOf.mpr ⟨l, hl, hsi⟩))
  have hpre : ∀ j ∈ sortByY (fun j => (posAt nposs (linkAt links j).source).y)
      (inLinksOf links i),
      (getAssoc (outgoingFold nodes links nposs
        (sortByY (fun j => (posAt nposs (linkAt links j).target).y)
          (outLinksOf links i)) st.1 (posAt nposs i).y) j).isSome = true := by
    intro j hj
    obtain ⟨l, hl, htgt⟩ := mem_inLinksOf.mp ((mem_sortByY _ _ _).mp hj)
    refine (hout j).mpr ⟨l, hl, ?_⟩
    have := hlt hl
    omega
  obtain ⟨h1, h2⟩ := incomingFold_inv nodes links nposs _ _ st.2 _ hpre
  constructor
  · rw [processNode, h1, hflag]
  · intro k
    rw [processNode, h2 k]
    exact hout k

theorem linkPosPass_no_fallback {nodes : List SNode} {links : List SLink}
    {nposs : List (Nat × NodePos)}
    (hlt : ∀ {j l}, links.get? j = some l → l.source < l.target) :
    (linkPosPass nodes links nposs).2 = false := by
  suffices h : ∀ n,
      ((List.range n).foldl (processNode nodes links nposs) ([], false)).2 = false
      ∧ entryInv links n
        ((List.range n).foldl (processNode nodes links nposs) ([], false)).1 by
    exact (h nodes.length).1
  intro n
  induction n with
  | zero =>
    refine ⟨rfl, fun j => ?_⟩
    simp [getAssoc]
  | succ n ih =>
    rw [List.range_succ, List.foldl_append, List.foldl_cons, List.foldl_nil]
    exact processNode_inv hlt ih.1 ih.2

/-- On clean data every produced link goes from a lower node index to a
strictly higher one (nodes are appended dimension by dimension). -/
theorem clean_link_bounds {hs : List String} {data : List CSVRecord}
    (hcl : CleanData hs data) {l : SLink}
    (hl : l ∈ mkLinks (mkNodes data hs) data hs) :
    l.source < l.target := by
  obtain ⟨i, sH, tH, hgi, hgi1, hl'⟩ := mem_mkLinks.mp hl
  obtain ⟨v, w, hS, hT, -⟩ := clean_link_shape hcl hgi hgi1 hl'
  exact idx_lt_of_dim_lt hS hT (Nat.lt_succ_self i)

/-- On clean data the "shouldn't happen" fallback is indeed unreachable. -/
theorem clean_no_fallback {hs : List String} {data : List CSVRecord}
    (hcl : CleanData hs data) (nposs : List (Nat × NodePos)) :
    (linkPosPass (mkNodes data hs) (mkLinks (mkNodes data hs) data hs)
      nposs).2 = false :=
  linkPosPass_no_fallback
    (fun hget => clean_link_bounds hcl (List.get?_mem hget))

/-! ## Selection model (`handleNodeHover`/`handleNodeUnhover`/`toggleNodeSelection`/`clearAllSelections`, src/app.ts lines 534–566 and 638–653)

Only the two `Set<number>` fields are state; the DOM styling calls have no
bearing on the selection. -/

/-- The selection-model state: the two JS `Set<number>` fields of the app,
modelled as insertion-ordered duplicate-free lists. -/
structure SelState where
  selectedNodes : List Nat
  clickedNodes : List Nat
  deriving DecidableEq, Repr

/-- `Set.add` (no-op when present, else append). -/
def insertSet (s : List Nat) (x : Nat) : List Nat :=
  if x ∈ s then s else s ++ [x]

/-- `Set.delete` (drops the element, keeps the others in order). -/
def eraseSet (s : List Nat) (x : Nat) : List Nat :=
  s.filter (fun y => y ≠ x)

/-- `handleNodeHover` (src/app.ts lines 534–541). -/
def handleNodeHover (st : SelState) (x : Nat) : SelState :=
  if x ∈ st.selectedNodes then st
  else ⟨insertSet st.selectedNodes x, st.clickedNodes⟩

/-- `handleNodeUnhover` (src/app.ts lines 543–550). -/
def handleNodeUnhover (st : SelState) (x : Nat) : SelState :=
  if x ∈ st.selectedNodes ∧ x ∉ st.clickedNodes then
    ⟨eraseSet st.selectedNodes x, st.clickedNodes⟩
  else st

/-- `toggleNodeSelection` (src/app.ts lines 552–566). -/
def toggleNodeSelection (st : SelState) (x : Nat) : SelState :=
  if x ∈ st.clickedNodes then
    ⟨eraseSet st.selectedNodes x, eraseSet st.clickedNodes x⟩
  else
    ⟨insertSet st.selectedNodes x, insertSet st.clickedNodes x⟩

/-- `clearAllSelections` (src/app.ts lines 638–641). -/
def clearAllSelections (_st : SelState) : SelState := ⟨[], []⟩

theorem mem_insertSet {s : List Nat} {x y : Nat} :
    y ∈ insertSet s x ↔ y = x ∨ y ∈ s := by
  rw [insertSet]
  by_cases hx : x ∈ s
  · rw [if_pos hx]
    constructor
    · exact Or.inr
    · rintro (rfl | h)
      · exact hx
      · exact h
  · rw [if_neg hx]
    simp [List.mem_append]
    tauto

theorem mem_eraseSet {s : List Nat} {x y : Nat} :
    y ∈ eraseSet s x ↔ y ∈ s ∧ y ≠ x := by
  rw [eraseSet]
  simp [List.mem_filter]

theorem toggle_toggle_mem (st : SelState) (x : Nat)
    (hsub : ∀ y ∈ st.clickedNodes, y ∈ st.selectedNodes)
    (hx : x ∈ st.clickedNodes ∨ x ∉ st.selectedNodes) :
    ∀ y, y ∈ (toggleNodeSelection (toggleNodeSelection st x) x).selectedNodes
      ↔ y ∈ st.selectedNodes := by
  intro y
  by_cases hc : x ∈ st.clickedNodes
  · have hsel : x ∈ st.selectedNodes := hsub x hc
    have hc2 : x ∉ eraseSet st.clickedNodes x := by
      rw [mem_eraseSet]
      rintro ⟨-, hne⟩
      exact hne rfl
    have ht1 : toggleNodeSelection st x
        = ⟨eraseSet st.selectedNodes x, eraseSet st.clickedNodes x⟩ := by
      rw [toggleNodeSelection, if_pos hc]
    rw [ht1, toggleNodeSelection, if_neg hc2]
    show y ∈ insertSet (eraseSet st.selectedNodes x) x ↔ y ∈ st.selectedNodes
    rw [mem_insertSet, mem_eraseSet]
    constructor
    · rintro (rfl | ⟨h1, -⟩)
      · exact hsel
      · exact h1
    · intro hy
      by_cases hyx : y = x
      · exact Or.inl hyx
      · exact Or.inr ⟨hy, hyx⟩
  · have hns : x ∉ st.selectedNodes := by
      rcases hx with h | h
      · exact absurd h hc
      · exact h
    have hc2 : x ∈ insertSet st.clickedNodes x := mem_insertSet.mpr (Or.inl rfl)
    have ht1 : toggleNodeSelection st x
        = ⟨insertSet st.selectedNodes x, insertSet st.clickedNodes x⟩ := by
      rw [toggleNodeSelection, if_neg hc]
    rw [ht1, toggleNodeSelection, if_pos hc2]
    show y ∈ eraseSet (insertSet st.selectedNodes x) x ↔ y ∈ st.selectedNodes
    rw [mem_eraseSet, mem_insertSet]
    constructor
    · rintro ⟨rfl | h1, hne⟩
      · exact absurd rfl hne
      · exact h1
    · intro hy
      have hne : y ≠ x := fun he => hns (he ▸ hy)
      exact ⟨Or.inr hy, hne⟩

theorem toggle_hovered_loses : ∃ st : SelState, ∃ x,
    x ∈ st.selectedNodes ∧ x ∉ st.clickedNodes ∧
    x ∉ (toggleNodeSelection (toggleNodeSelection st x) x).selectedNodes := by
  refine ⟨⟨[0], []⟩, 0, ?_, ?_, ?_⟩ <;> decide

/-! ## Parse layer (`parseCSV`, src/app.ts lines 99–145) and plot choice (`generatePlot`, lines 159–167) -/


/-- JS object property assignment `record[header] = value` (a later
assignment to the same name overwrites). -/
def setAttr (attrs : List (String × String)) (h v : String) :
    List (String × String) :=
  if attrs.any (fun p => p.1 = h) then
    attrs.map (fun p => if p.1 = h then (p.1, v) else p)
  else attrs ++ [(h, v)]

/-- `dimensionHeaders.forEach((header, index) => record[header] = parts[index])`
(src/app.ts lines 137–139; `index` is always within `parts`). -/
def buildAttrs (dims : List String) (parts : List String) :
    List (String × String) :=
  dims.enum.foldl (fun acc p => setAttr acc p.2 (parts.getD p.1 "")) []

/-- One iteration of the data-row loop of `parseCSV` (src/app.ts lines
118–142): `none` when the row is skipped (blank, wrong column count, or
unparsable count), `some` the record it pushes. -/
def lineToRecord (headers : List String) (raw : String) : Option CSVRecord :=
  if jsTrim raw = "" then none
  else if ((jsSplit "," (jsTrim raw)).map jsTrim).length ≠ headers.length then
    none
  else
    match jsParseFloat (((jsSplit "," (jsTrim raw)).map jsTrim).getD
        (headers.length - 1) "") with
    | none => none
    | some c =>
      some ⟨buildAttrs headers.dropLast ((jsSplit "," (jsTrim raw)).map jsTrim),
        c⟩

def parseRows (headers : List String) (rest : List String) : List CSVRecord :=
  rest.filterMap (lineToRecord headers)

/-- `parseCSV` (src/app.ts lines 99–145); `Except.error` models `throw`. -/
def parseCSV (text : String) : Except String (List String × List CSVRecord) :=
  if (jsSplit "\n" (jsTrim text)).length < 2 then
    Except.error "CSV must have at least a header row and one data row"
  else if ((jsSplit "," ((jsSplit "\n" (jsTrim text)).getD 0 "")).map
      jsTrim).length < 2 then
    Except.error "CSV must have at least 2 columns (dimensions + count)"
  else
    Except.ok ((jsSplit "," ((jsSplit "\n" (jsTrim text)).getD 0 "")).map jsTrim,
      parseRows ((jsSplit "," ((jsSplit "\n" (jsTrim text)).getD 0 "")).map
        jsTrim) ((jsSplit "\n" (jsTrim text)).tail))

inductive PlotChoice where
  | sankey (dims : List String)
  | barChart (dims : List String)
  deriving DecidableEq, Repr

/-- `generatePlot` (src/app.ts lines 159–167): at least two dimension
headers draw the Sankey diagram, otherwise the internal bar chart; no
error is signalled either way. -/
def generatePlot (headers : List String) : PlotChoice :=
  if 2 ≤ headers.dropLast.length then PlotChoice.sankey headers.dropLast
  else PlotChoice.barChart headers.dropLast

theorem parseRows_drop_malformed (headers : List String)
    (pre post : List String) (bad : String)
    (hbad : lineToRecord headers bad = none) :
    parseRows headers (pre ++ bad :: post) = parseRows headers (pre ++ post) := by
  simp [parseRows, List.filterMap_append, List.filterMap_cons, hbad]

/-! ## Concrete datasets for the claim witnesses and counterexamples -/


def hsAB : List String := ["A", "B"]
def dataAB01 : List CSVRecord :=
  [⟨[("A","x"),("B","y")], 1⟩, ⟨[("A","z"),("B","w")], 0⟩]
def dataAB00 : List CSVRecord :=
  [⟨[("A","x"),("B","y")], 0⟩, ⟨[("A","z"),("B","w")], 0⟩]

def hsRP : List String := ["Region", "Product"]
def dataRP : List CSVRecord :=
  [⟨[("Region","North"),("Product","Phone")], 1⟩,
   ⟨[("Region","North"),("Product","Laptop")], 1⟩,
   ⟨[("Region","South"),("Product","Laptop")], 1⟩]

def hsHG : List String := ["h", "g"]
def dataHG : List CSVRecord :=
  [⟨[("h","a"),("g","b")], 5⟩, ⟨[("h","a → g:b"),("g","w")], 2⟩]

def hsDup : List String := ["a", "b", "a"]
def dataDup : List CSVRecord := [⟨[("a","x"),("b","y")], 1⟩]


/-! ## The claims -/

/-- C1 (amended): flow conservation. For a clean dataset whose record
weights are all positive, every non-terminal node's outgoing source-side
link heights sum (JS addition) to exactly the node's own height, and every
non-initial node's incoming target-side link heights sum to its height.
The claim's own assumption (positive column totals) is not enough: see the
counterexample, where a zero-weight record makes a link height NaN. -/
theorem c1_flow_conservation {hs : List String} {data : List CSVRecord}
    (W H : ℚ) (hcl : CleanData hs data) (hpos : ∀ r ∈ data, 0 < r.count)
    {i : Nat} {n : SNode}
    (hget : (prepareSankeyData data hs).nodes.get? i = some n) :
    (n.dimIndex + 1 < hs.length →
      jsum (((prepareSankeyData data hs).links.filter
          (fun l => l.source = i)).map
        (linkSourceHeight (prepareSankeyData data hs).nodes
          (calcNodePositions (prepareSankeyData data hs).nodes W H hs.length)))
        = (posAt (calcNodePositions (prepareSankeyData data hs).nodes W H
            hs.length) i).height)
    ∧ (0 < n.dimIndex →
      jsum (((prepareSankeyData data hs).links.filter
          (fun l => l.target = i)).map
        (linkTargetHeight (prepareSankeyData data hs).nodes
          (calcNodePositions (prepareSankeyData data hs).nodes W H hs.length)))
        = (posAt (calcNodePositions (prepareSankeyData data hs).nodes W H
            hs.length) i).height) :=
  flow_conservation W H hcl hpos hget

unseal Rat.add Rat.mul Rat.sub Rat.inv Nat.gcd in
/-- Witness: flow conservation holds at node 0 of the concrete clean
Region/Product dataset. -/
theorem c1_flow_conservation_witness :
    CleanData hsRP dataRP ∧ (∀ r ∈ dataRP, 0 < r.count) ∧
    jsum (((prepareSankeyData dataRP hsRP).links.filter
        (fun l => l.source = 0)).map
      (linkSourceHeight (prepareSankeyData dataRP hsRP).nodes
        (calcNodePositions (prepareSankeyData dataRP hsRP).nodes 800 600
          hsRP.length)))
      = (posAt (calcNodePositions (prepareSankeyData dataRP hsRP).nodes 800 600
          hsRP.length) 0).height :=
  ⟨by decide, by decide,
    (c1_flow_conservation 800 600 (by decide) (by decide)
      (show (prepareSankeyData dataRP hsRP).nodes.get? 0 = some
        ⟨"Region:North", "North", "Region", some "North", 0, 2⟩ by decide)).1
      (by decide)⟩

unseal Rat.add Rat.mul Rat.sub Rat.inv Nat.gcd in
/-- Counterexample to C1 as stated: in `dataAB01` both column totals are
positive, yet node 1 (weight 0) has height `some 0` while the JS sum of
its outgoing source-side link heights is `none` (NaN, from 0/0). -/
theorem c1_flow_conservation_cex :
    0 < colTotal (prepareSankeyData dataAB01 hsAB).nodes 0 ∧
    0 < colTotal (prepareSankeyData dataAB01 hsAB).nodes 1 ∧
    (prepareSankeyData dataAB01 hsAB).nodes.get? 1
      = some ⟨"A:z", "z", "A", some "z", 0, 0⟩ ∧
    jsum (((prepareSankeyData dataAB01 hsAB).links.filter
        (fun l => l.source = 1)).map
      (linkSourceHeight (prepareSankeyData dataAB01 hsAB).nodes
        (calcNodePositions (prepareSankeyData dataAB01 hsAB).nodes 800 600
          hsAB.length))) = none ∧
    (posAt (calcNodePositions (prepareSankeyData dataAB01 hsAB).nodes 800 600
        hsAB.length) 1).height = some 0 := by decide

unseal Rat.add Rat.mul Rat.sub Rat.inv Nat.gcd in
/-- C2: a record matches iff for every dimension with at least one
selected node the record's value in that dimension is among that
dimension's selected values (AND across dimensions, OR within one); and in
the three-record Region/Product example with `Region:North` (node 0) and
`Product:Phone` (node 2) selected, only the North→Phone link reaches
proportion 1 and the other two links 0. -/
theorem c2_selection_and_or :
    (∀ (nodes : List SNode) (sel : List Nat) (r : CSVRecord),
      matchesSelection (selectedByDimension nodes sel) r = true
        ↔ ∀ h : String, (∃ i ∈ sel, (nodeAt nodes i).header = h) →
            r.get? h ∈ ((sel.map (fun i => nodeAt nodes i)).filter
              (fun n => n.header = h)).map SNode.value) ∧
    (prepareSankeyData dataRP hsRP).nodes.get? 0
      = some ⟨"Region:North", "North", "Region", some "North", 0, 2⟩ ∧
    (prepareSankeyData dataRP hsRP).nodes.get? 2
      = some ⟨"Product:Phone", "Phone", "Product", some "Phone", 1, 1⟩ ∧
    (prepareSankeyData dataRP hsRP).links.map
      (linkProportion dataRP (prepareSankeyData dataRP hsRP).nodes
        (selectedByDimension (prepareSankeyData dataRP hsRP).nodes [0, 2]))
      = [some 1, some 0, some 0] :=
  ⟨matchesSelection_iff, by decide, by decide, by decide⟩

/-- C3 (amended): for a clean dataset with non-negative weights, every
link's matching proportion is a finite rational in [0, 1]. Cleanliness is
needed beyond the claim's assumptions: values containing the `" → "`
separator can push the proportion above 1 (see the counterexample). -/
theorem c3_proportion_bounds {hs : List String} {data : List CSVRecord}
    (hcl : CleanData hs data) (hnn : ∀ r ∈ data, 0 ≤ r.count) {l : SLink}
    (hl : l ∈ (prepareSankeyData data hs).links)
    (selByDim : List (String × List (Option String))) :
    ∃ q, linkProportion data (prepareSankeyData data hs).nodes selByDim l
      = some q ∧ 0 ≤ q ∧ q ≤ 1 := by
  rw [prepareSankeyData_links] at hl
  rw [prepareSankeyData_nodes]
  exact linkProportion_in_unit hcl hnn hl selByDim

unseal Rat.add Rat.mul Rat.sub Rat.inv Nat.gcd in
/-- Witness: the bounds at the concrete North→Phone link. -/
theorem c3_proportion_bounds_witness :
    CleanData hsRP dataRP ∧ (∀ r ∈ dataRP, 0 ≤ r.count) ∧
    (⟨0, 2, 1, [⟨[("Region","North"),("Product","Phone")], 1⟩],
        "Region:North", "Product:Phone"⟩ : SLink)
      ∈ (prepareSankeyData dataRP hsRP).links ∧
    (∃ q, linkProportion dataRP (prepareSankeyData dataRP hsRP).nodes
      (selectedByDimension (prepareSankeyData dataRP hsRP).nodes [0, 2])
      ⟨0, 2, 1, [⟨[("Region","North"),("Product","Phone")], 1⟩],
        "Region:North", "Product:Phone"⟩ = some q ∧ 0 ≤ q ∧ q ≤ 1) :=
  ⟨by decide, by decide, by decide,
    c3_proportion_bounds (by decide) (by decide) (by decide) _⟩

unseal Rat.add Rat.mul Rat.sub Rat.inv Nat.gcd in
/-- Counterexample to C3 as stated: `dataHG` has non-negative weights,
yet the second produced link gets proportion 5/2 > 1 (its key string is
re-split at the `" → "` inside a value, so the endpoint filter matches the
other, heavier record). -/
theorem c3_proportion_bounds_cex :
    (prepareSankeyData dataHG hsHG).links.getD 1 default
      ∈ (prepareSankeyData dataHG hsHG).links ∧
    linkProportion dataHG (prepareSankeyData dataHG hsHG).nodes
      (selectedByDimension (prepareSankeyData dataHG hsHG).nodes [0])
      ((prepareSankeyData dataHG hsHG).links.getD 1 default)
      = some (5 / 2) ∧
    ¬ ((5 : ℚ) / 2 ≤ 1) := by decide

unseal Rat.add Rat.mul Rat.sub Rat.inv Nat.gcd in
/-- C4 (code bug): with an all-zero-weight column the code divides
`node.totalValue / totalDimValue = 0 / 0`; the node heights and the second
node's y offset are NaN (`none`), not the zero heights and well-defined
finite positions the spec requires. -/
theorem c4_zero_total_column_nan :
    colTotal (mkNodes dataAB00 hsAB) 0 = 0 ∧
    (posAt (calcNodePositions (mkNodes dataAB00 hsAB) 800 600 hsAB.length)
      0).height = none ∧
    posLookup (calcNodePositions (mkNodes dataAB00 hsAB) 800 600 hsAB.length) 1
      = some ⟨0, none, none⟩ := by decide

/-- C5 (amended): the double pin-toggle preserves the effective
selection membership provided every clicked node is selected and the
toggled node is not in the hovered (selected-but-unclicked) state. In the
hovered state the claim fails: see the counterexample. -/
theorem c5_toggle_toggle (st : SelState) (x : Nat)
    (hsub : ∀ y ∈ st.clickedNodes, y ∈ st.selectedNodes)
    (hx : x ∈ st.clickedNodes ∨ x ∉ st.selectedNodes) :
    ∀ y, y ∈ (toggleNodeSelection (toggleNodeSelection st x) x).selectedNodes
      ↔ y ∈ st.selectedNodes :=
  toggle_toggle_mem st x hsub hx

/-- Witness: the double toggle at a pinned-and-selected node. -/
theorem c5_toggle_toggle_witness :
    (∀ y ∈ (⟨[1], [1]⟩ : SelState).clickedNodes,
      y ∈ (⟨[1], [1]⟩ : SelState).selectedNodes) ∧
    (1 ∈ (⟨[1], [1]⟩ : SelState).clickedNodes ∨
      1 ∉ (⟨[1], [1]⟩ : SelState).selectedNodes) ∧
    (∀ y, y ∈ (toggleNodeSelection (toggleNodeSelection ⟨[1], [1]⟩ 1)
        1).selectedNodes ↔ y ∈ (⟨[1], [1]⟩ : SelState).selectedNodes) :=
  ⟨by decide, by decide, c5_toggle_toggle ⟨[1], [1]⟩ 1 (by decide) (by decide)⟩

/-- Counterexample to C5 as stated: from the hovered state
(`selectedNodes = [0]`, `clickedNodes = []`) toggling node 0 twice empties
the selection instead of restoring it. -/
theorem c5_toggle_toggle_cex :
    0 ∈ (⟨[0], []⟩ : SelState).selectedNodes ∧
    0 ∉ (⟨[0], []⟩ : SelState).clickedNodes ∧
    (toggleNodeSelection (toggleNodeSelection ⟨[0], []⟩ 0) 0).selectedNodes
      = [] := by decide

/-- C6 (amended): for clean datasets, filtering the global record set by
the link-endpoint values and the selection yields exactly the link's own
retained records filtered by the selection. With `" → "` inside values the
two sides differ (see the counterexample). -/
theorem c6_matching_refinement {hs : List String} {data : List CSVRecord}
    (hcl : CleanData hs data) {l : SLink}
    (hl : l ∈ (prepareSankeyData data hs).links)
    (selByDim : List (String × List (Option String))) :
    matchingRecords data (prepareSankeyData data hs).nodes selByDim l
      = l.records.filter (fun r => matchesSelection selByDim r) := by
  rw [prepareSankeyData_links] at hl
  rw [prepareSankeyData_nodes]
  exact matchingRecords_eq_retained hcl hl selByDim

unseal Rat.add Rat.mul Rat.sub Rat.inv Nat.gcd in
/-- Witness: the refinement equality at the concrete North→Phone link. -/
theorem c6_matching_refinement_witness :
    CleanData hsRP dataRP ∧
    (⟨0, 2, 1, [⟨[("Region","North"),("Product","Phone")], 1⟩],
        "Region:North", "Product:Phone"⟩ : SLink)
      ∈ (prepareSankeyData dataRP hsRP).links ∧
    matchingRecords dataRP (prepareSankeyData dataRP hsRP).nodes
      (selectedByDimension (prepareSankeyData dataRP hsRP).nodes [0])
      ⟨0, 2, 1, [⟨[("Region","North"),("Product","Phone")], 1⟩],
        "Region:North", "Product:Phone"⟩
      = (⟨0, 2, 1, [⟨[("Region","North"),("Product","Phone")], 1⟩],
          "Region:North", "Product:Phone"⟩ : SLink).records.filter
        (fun r => matchesSelection
          (selectedByDimension (prepareSankeyData dataRP hsRP).nodes [0]) r) :=
  ⟨by decide, by decide,
    c6_matching_refinement (by decide) (by decide) _⟩

unseal Rat.add Rat.mul Rat.sub Rat.inv Nat.gcd in
/-- Counterexample to C6 as stated: for the second `dataHG` link the
global filter returns the other record (weight 5) while the link's
retained records filtered by the same selection return nothing. -/
theorem c6_matching_refinement_cex :
    matchingRecords dataHG (prepareSankeyData dataHG hsHG).nodes
      (selectedByDimension (prepareSankeyData dataHG hsHG).nodes [0])
      ((prepareSankeyData dataHG hsHG).links.getD 1 default)
      = [⟨[("h","a"),("g","b")], 5⟩] ∧
    ((prepareSankeyData dataHG hsHG).links.getD 1 default).records.filter
      (fun r => matchesSelection
        (selectedByDimension (prepareSankeyData dataHG hsHG).nodes [0]) r)
      = [] := by decide

/-- C7 (amended): the node key `(dimIndex, value)` is injective over the
produced nodes for every dataset; the link key `(source, target)` is
injective over the produced links for clean datasets. The claim's
"including separator characters in values" part fails: see the
counterexample. -/
theorem c7_identity_uniqueness :
    (∀ (data : List CSVRecord) (hs : List String) (i j : Nat) (ni nj : SNode),
      (mkNodes data hs).get? i = some ni → (mkNodes data hs).get? j = some nj →
      ni.dimIndex = nj.dimIndex → ni.value = nj.value → i = j) ∧
    (∀ (hs : List String) (data : List CSVRecord), CleanData hs data →
      (prepareSankeyData data hs).links.Pairwise
        (fun l1 l2 => ¬(l1.source = l2.source ∧ l1.target = l2.target))) :=
  ⟨fun _ _ _ _ _ _ hi hj hdim hval => mkNodes_key_injective hi hj hdim hval,
    fun hs _ hcl => by
      rw [prepareSankeyData_links]
      exact mkLinks_pairwise_inj hcl hs 0 (List.drop_zero hs)⟩

unseal Rat.add Rat.mul Rat.sub Rat.inv Nat.gcd in
/-- Counterexample to C7 as stated: with `" → g:b"` inside a value,
`dataHG` produces two links with identical `(source, target)` identity. -/
theorem c7_identity_uniqueness_cex :
    (prepareSankeyData dataHG hsHG).links.length = 2 ∧
    ((prepareSankeyData dataHG hsHG).links.getD 0 default).source
      = ((prepareSankeyData dataHG hsHG).links.getD 1 default).source ∧
    ((prepareSankeyData dataHG hsHG).links.getD 0 default).target
      = ((prepareSankeyData dataHG hsHG).links.getD 1 default).target := by
  decide

deriving instance DecidableEq for Except

unseal Rat.add Rat.mul Rat.sub Rat.inv Nat.gcd in
/-- C8 (amended): with fewer than 2 dimension headers `generatePlot`
silently falls back to the internal bar chart; no error of any kind is
signalled to a caller. Only a CSV with fewer than 2 total columns aborts
`parseCSV`, and a one-dimension dataset parses successfully. -/
theorem c8_insufficient_dims :
    (∀ headers : List String, headers.dropLast.length < 2 →
      generatePlot headers = PlotChoice.barChart headers.dropLast) ∧
    parseCSV "A,count\nx,1"
      = Except.ok (["A", "count"], [⟨[("A", "x")], 1⟩]) := by
  constructor
  · intro headers h
    rw [generatePlot, if_neg (by omega)]
  · decide

unseal Rat.add Rat.mul Rat.sub Rat.inv Nat.gcd in
/-- Counterexample to C8 as stated: the one-dimension dataset
`"A,count\nx,1"` parses without error and the plot path chooses the
internal bar chart; no `InsufficientDimensions` error exists anywhere in
the pipeline. -/
theorem c8_insufficient_dims_cex :
    parseCSV "A,count\nx,1"
      = Except.ok (["A", "count"], [⟨[("A", "x")], 1⟩]) ∧
    generatePlot ["A", "count"] = PlotChoice.barChart ["A"] := by decide

/-- C9 (amended): a malformed row (wrong column count or unparsable
weight) is dropped without aborting the parse, and the remaining
well-formed rows still produce their records. The claim's "reported as a
count or list to the caller" part fails: see the counterexample. -/
theorem c9_malformed_dropped (headers : List String) (pre post : List String)
    (bad : String) (hbad : lineToRecord headers bad = none) :
    parseRows headers (pre ++ bad :: post) = parseRows headers (pre ++ post) :=
  parseRows_drop_malformed headers pre post bad hbad

unseal Rat.add Rat.mul Rat.sub Rat.inv Nat.gcd in
/-- Witness: dropping the concrete malformed row `"bad,row"`. -/
theorem c9_malformed_dropped_witness :
    lineToRecord ["A", "B", "count"] "bad,row" = none ∧
    parseRows ["A", "B", "count"] (["a,b,5"] ++ "bad,row" :: ["e,f,2"])
      = parseRows ["A", "B", "count"] (["a,b,5"] ++ ["e,f,2"]) :=
  ⟨by decide,
    c9_malformed_dropped ["A", "B", "count"] ["a,b,5"] ["e,f,2"] "bad,row"
      (by decide)⟩

unseal Rat.add Rat.mul Rat.sub Rat.inv Nat.gcd in
/-- Counterexample to C9 as stated: the parses with and without the two
malformed rows return exactly the same value, so no count or list of
dropped records reaches the caller (the drops are only `console.warn`ed). -/
theorem c9_malformed_dropped_cex :
    lineToRecord ["A", "B", "count"] "bad,row" = none ∧
    lineToRecord ["A", "B", "count"] "c,d,zz" = none ∧
    parseCSV "A,B,count\na,b,5\nbad,row\nc,d,zz\ne,f,2"
      = parseCSV "A,B,count\na,b,5\ne,f,2" := by
  refine ⟨by decide, by decide, ?_⟩
  decide

/-- C10 (amended): for clean datasets the "This shouldn't happen"
fallback branch of the link-position pass is unreachable (every link's
source index is below its target index, so the entry always exists when
the link is visited as incoming). With duplicate dimension headers the
claim fails: see the counterexample. -/
theorem c10_fallback_unreachable {hs : List String} {data : List CSVRecord}
    (hcl : CleanData hs data) (chartW chartH : ℚ) (ndims : Nat) :
    (calculatePositions (mkNodes data hs) (mkLinks (mkNodes data hs) data hs)
      chartW chartH ndims).2.2 = false :=
  clean_no_fallback hcl _

unseal Rat.add Rat.mul Rat.sub Rat.inv Nat.gcd in
/-- Witness: no fallback on the concrete clean two-column dataset. -/
theorem c10_fallback_unreachable_witness :
    CleanData hsAB dataAB01 ∧
    (calculatePositions (mkNodes dataAB01 hsAB)
      (mkLinks (mkNodes dataAB01 hsAB) dataAB01 hsAB) 800 600
        hsAB.length).2.2 = false :=
  ⟨by decide, c10_fallback_unreachable (by decide) 800 600 hsAB.length⟩

unseal Rat.add Rat.mul Rat.sub Rat.inv Nat.gcd in
/-- Counterexample to C10 as stated: with the duplicate header list
`["a", "b", "a"]` the `nodeMap` lookups resolve to the last `"a:x"` node,
one produced link runs from index 2 back to index 1, and the fallback
branch is taken. -/
theorem c10_fallback_unreachable_cex :
    (calculatePositions (mkNodes dataDup hsDup)
      (mkLinks (mkNodes dataDup hsDup) dataDup hsDup) 800 600
        hsDup.length).2.2 = true := by decide
